import Mathlib

/-!
Verification development for the attribute-exchange protocol and the
stream-dispatch engine of the istio/mixer repository.

The repository ships the tests and callers of the attribute package
(`pkg/attribute`) and of the goroutine pool (`pkg/pool`), but not their
implementations, so those components are modelled from the specification
(doc comments below say "Modelled from the spec:" where that happens).
The gRPC dispatcher (`pkg/api`, file `grpcServer.go`) is present in the
sources and is translated directly.
-/

namespace Mixer

/-! ### Attribute values

Modelled from the spec, section 3: a tagged union over string, int64,
float64, bool, timestamp, duration, byte sequence and string-to-string map.
Float64 payloads, timestamps and durations are carried opaquely by the
codec, so they are represented by their raw payloads (bit pattern for
doubles, nanosecond counts for times and durations). Go maps are
represented as association lists. -/
inductive AttributeValue where
  | str (s : String)
  | i64 (v : Int)
  | dbl (bits : Nat)
  | bl (b : Bool)
  | ts (nanos : Int)
  | dur (nanos : Int)
  | bytes (bs : List Nat)
  | strMap (entries : List (String × String))
deriving DecidableEq, Repr

/-- Modelled from the spec, section 6: the wire attribute message
(`istio.io/api` `mixerpb.Attributes`, an external dependency of the
sources). It carries a local word list plus one index-to-value map per
supported value type; string values and string-map entries are themselves
dictionary indices. Go maps are represented as association lists. -/
structure Attributes where
  words : List String
  strings : List (Int × Int)
  int64s : List (Int × Int)
  doubles : List (Int × Nat)
  bools : List (Int × Bool)
  timestamps : List (Int × Int)
  durations : List (Int × Int)
  bytesA : List (Int × List Nat)
  stringMaps : List (Int × List (Int × Int))
deriving DecidableEq, Repr

/-- The empty wire message. -/
def Attributes.empty : Attributes :=
  ⟨[], [], [], [], [], [], [], [], []⟩

/-! ### Association-list helpers -/

/-- First-match lookup in an association list (the shallow embedding of a
Go map read). -/
def alookup {α : Type} : List (String × α) → String → Option α
  | [], _ => none
  | (k, v) :: rest, n => if k = n then some v else alookup rest n

/-- Association-list update: overwrite the binding for `k` if present,
append it otherwise (the shallow embedding of a Go map write). -/
def aset {α : Type} : List (String × α) → String → α → List (String × α)
  | [], k, v => [(k, v)]
  | (k', v') :: rest, k, v =>
    if k' = k then (k, v) :: rest else (k', v') :: aset rest k v

theorem alookup_aset_self {α : Type} (l : List (String × α)) (k : String) (v : α) :
    alookup (aset l k v) k = some v := by
  induction l with
  | nil => simp [aset, alookup]
  | cons p rest ih =>
    obtain ⟨k', v'⟩ := p
    by_cases h : k' = k <;> simp [aset, alookup, h, ih]

theorem alookup_aset_ne {α : Type} (l : List (String × α)) (k n : String) (v : α)
    (h : k ≠ n) : alookup (aset l k v) n = alookup l n := by
  induction l with
  | nil => simp [aset, alookup, h]
  | cons p rest ih =>
    obtain ⟨k', v'⟩ := p
    by_cases h' : k' = k
    · subst h'
      simp [aset, alookup, h]
    · simp [aset, alookup, h', ih]

/-- If every binding for `n` in `l` carries value `v`, and some binding for
`n` exists, then the first-match lookup returns `v`. -/
theorem alookup_eq_of_uniform {α : Type} (l : List (String × α)) (n : String) (v : α)
    (hmem : (n, v) ∈ l) (huni : ∀ p ∈ l, p.1 = n → p.2 = v) :
    alookup l n = some v := by
  induction l with
  | nil => cases hmem
  | cons p rest ih =>
    obtain ⟨k, w⟩ := p
    by_cases h : k = n
    · have : w = v := huni (k, w) (by simp) h
      simp [alookup, h, this]
    · rcases List.mem_cons.mp hmem with h1 | h1
      · cases h1; exact absurd rfl h
      · simp only [alookup, if_neg h]
        exact ih h1 (fun p hp => huni p (List.mem_cons_of_mem _ hp))

/-! ### Two-tier dictionary resolution

Modelled from the spec, section 3: index `i >= 0` resolves to `global[i]`;
index `i < 0` resolves to `local[-i-1]`; resolution fails if either index
is out of bounds for its list. -/
def lookupName (globalWords messageWords : List String) (i : Int) : Option String :=
  if 0 ≤ i then globalWords[i.toNat]?
  else messageWords[(-i - 1).toNat]?

/-! ### Decoding (wire message to bag)

Modelled from the spec, section 4.1 (`DecodeAttributes`, named
`GetBagFromProto` by the attribute package tests in the sources): for
every entry in every typed map, resolve the name index, build the value
(resolving value-side indices for strings and string maps), and insert
into a fresh bag; fail with the offending index if any resolution fails,
returning no partial bag. -/

/-- Decode one string-map payload: resolve both indices of every entry. -/
def decodePairs (g w : List String) : List (Int × Int) → Except Int (List (String × String))
  | [] => .ok []
  | (i, j) :: rest =>
    match lookupName g w i with
    | none => .error i
    | some k =>
      match lookupName g w j with
      | none => .error j
      | some v =>
        match decodePairs g w rest with
        | .error e => .error e
        | .ok tl => .ok ((k, v) :: tl)

/-- Decode one typed map: resolve each entry's name index and payload. -/
def decodeList {α : Type} (g w : List String) (f : α → Except Int AttributeValue) :
    List (Int × α) → Except Int (List (String × AttributeValue))
  | [] => .ok []
  | (i, a) :: rest =>
    match lookupName g w i with
    | none => .error i
    | some n =>
      match f a with
      | .error e => .error e
      | .ok v =>
        match decodeList g w f rest with
        | .error e => .error e
        | .ok tl => .ok ((n, v) :: tl)

/-- Payload decoder for string-valued entries: the payload is itself a
dictionary index. -/
def decodeStringVal (g w : List String) (j : Int) : Except Int AttributeValue :=
  match lookupName g w j with
  | none => .error j
  | some s => .ok (.str s)

/-- Payload decoder for string-map entries. -/
def decodeStrMapVal (g w : List String) (entries : List (Int × Int)) :
    Except Int AttributeValue :=
  match decodePairs g w entries with
  | .error e => .error e
  | .ok ps => .ok (.strMap ps)

/-- A decoded bag: attribute name to value. -/
def ProtoBag : Type := List (String × AttributeValue)

/-- `Get` on a decoded bag. -/
def ProtoBag.get (b : ProtoBag) (n : String) : Option AttributeValue :=
  alookup b n

/-- `Names` on a decoded bag. -/
def ProtoBag.names (b : ProtoBag) : List String :=
  b.map Prod.fst

/-- Modelled from the spec, section 4.1: decode a wire message against a
global dictionary, all-or-nothing. The implementation of
`attribute.GetBagFromProto` is absent from the sources (only its tests and
callers are present). -/
def GetBagFromProto (attrs : Attributes) (g : List String) : Except Int ProtoBag :=
  match decodeList g attrs.words (decodeStringVal g attrs.words) attrs.strings with
  | .error e => .error e
  | .ok l1 =>
  match decodeList g attrs.words (fun v => .ok (.i64 v)) attrs.int64s with
  | .error e => .error e
  | .ok l2 =>
  match decodeList g attrs.words (fun v => .ok (.dbl v)) attrs.doubles with
  | .error e => .error e
  | .ok l3 =>
  match decodeList g attrs.words (fun v => .ok (.bl v)) attrs.bools with
  | .error e => .error e
  | .ok l4 =>
  match decodeList g attrs.words (fun v => .ok (.ts v)) attrs.timestamps with
  | .error e => .error e
  | .ok l5 =>
  match decodeList g attrs.words (fun v => .ok (.dur v)) attrs.durations with
  | .error e => .error e
  | .ok l6 =>
  match decodeList g attrs.words (fun v => .ok (.bytes v)) attrs.bytesA with
  | .error e => .error e
  | .ok l7 =>
  match decodeList g attrs.words (decodeStrMapVal g attrs.words) attrs.stringMaps with
  | .error e => .error e
  | .ok l8 => .ok (l1 ++ l2 ++ l3 ++ l4 ++ l5 ++ l6 ++ l7 ++ l8)

/-! ### Encoding (bag to wire message)

Modelled from the spec, section 4.1 (`EncodeAttributes`, named `ToProto`
by the attribute package tests in the sources; the implementation is
absent from the sources): for each requested name, look up the value,
resolve an index — preferring an existing global-dictionary entry via the
reverse global dictionary, otherwise appending the name to the message's
local word list and using the corresponding negative index — and place
the value into the type-appropriate map of the output message. -/

/-- A generic wire payload before it is split into the typed maps of the
output message; mirrors `AttributeValue` with dictionary indices standing
in for strings. -/
inductive WireVal where
  | s (i : Int)
  | i64 (v : Int)
  | dbl (v : Nat)
  | bl (v : Bool)
  | ts (v : Int)
  | dur (v : Int)
  | bytes (v : List Nat)
  | sm (entries : List (Int × Int))
deriving DecidableEq, Repr

/-- Resolve a string to a dictionary index: an existing entry of the
reverse global dictionary if there is one, otherwise the negative index of
a fresh slot appended to the message-local word list. -/
def assignIndex (rev : List (String × Int)) (st : List String) (n : String) :
    Int × List String :=
  match alookup rev n with
  | some i => (i, st)
  | none => (-(st.length : Int) - 1, st ++ [n])

/-- Encode a string map payload, threading the word-list state. -/
def encodePairs (rev : List (String × Int)) :
    List (String × String) → List String → List (Int × Int) × List String
  | [], st => ([], st)
  | (k, v) :: rest, st =>
    let (i, st1) := assignIndex rev st k
    let (j, st2) := assignIndex rev st1 v
    let (tl, st3) := encodePairs rev rest st2
    ((i, j) :: tl, st3)

/-- Encode one value, threading the word-list state. -/
def encodeVal (rev : List (String × Int)) (v : AttributeValue) (st : List String) :
    WireVal × List String :=
  match v with
  | .str s => let (i, st1) := assignIndex rev st s; (.s i, st1)
  | .i64 n => (.i64 n, st)
  | .dbl n => (.dbl n, st)
  | .bl b => (.bl b, st)
  | .ts n => (.ts n, st)
  | .dur n => (.dur n, st)
  | .bytes bs => (.bytes bs, st)
  | .strMap es => let (ps, st1) := encodePairs rev es st; (.sm ps, st1)

/-- Encode the values of `bag` for each name in `names` (names with no
value in the bag are skipped), threading the word-list state. -/
def encodeEntries (rev : List (String × Int)) (bag : ProtoBag) :
    List String → List String → List (Int × WireVal) × List String
  | [], st => ([], st)
  | n :: rest, st =>
    match alookup bag n with
    | none => encodeEntries rev bag rest st
    | some v =>
      let (i, st1) := assignIndex rev st n
      let (wv, st2) := encodeVal rev v st1
      let (tl, st3) := encodeEntries rev bag rest st2
      ((i, wv) :: tl, st3)

/-- Select the string-typed entries of a generic entry list. -/
def projS (e : Int × WireVal) : Option (Int × Int) :=
  match e.2 with | .s i => some (e.1, i) | _ => none

/-- Select the int64-typed entries of a generic entry list. -/
def projI64 (e : Int × WireVal) : Option (Int × Int) :=
  match e.2 with | .i64 v => some (e.1, v) | _ => none

/-- Select the double-typed entries of a generic entry list. -/
def projDbl (e : Int × WireVal) : Option (Int × Nat) :=
  match e.2 with | .dbl v => some (e.1, v) | _ => none

/-- Select the bool-typed entries of a generic entry list. -/
def projBl (e : Int × WireVal) : Option (Int × Bool) :=
  match e.2 with | .bl v => some (e.1, v) | _ => none

/-- Select the timestamp-typed entries of a generic entry list. -/
def projTs (e : Int × WireVal) : Option (Int × Int) :=
  match e.2 with | .ts v => some (e.1, v) | _ => none

/-- Select the duration-typed entries of a generic entry list. -/
def projDur (e : Int × WireVal) : Option (Int × Int) :=
  match e.2 with | .dur v => some (e.1, v) | _ => none

/-- Select the byte-sequence-typed entries of a generic entry list. -/
def projBytes (e : Int × WireVal) : Option (Int × List Nat) :=
  match e.2 with | .bytes v => some (e.1, v) | _ => none

/-- Select the string-map-typed entries of a generic entry list. -/
def projSm (e : Int × WireVal) : Option (Int × List (Int × Int)) :=
  match e.2 with | .sm v => some (e.1, v) | _ => none

/-- Split generic entries into the typed maps of the wire message. -/
def toAttributes (es : List (Int × WireVal)) (w : List String) : Attributes where
  words := w
  strings := es.filterMap projS
  int64s := es.filterMap projI64
  doubles := es.filterMap projDbl
  bools := es.filterMap projBl
  timestamps := es.filterMap projTs
  durations := es.filterMap projDur
  bytesA := es.filterMap projBytes
  stringMaps := es.filterMap projSm

/-- Modelled from the spec, section 4.1: encode the given names of a bag
into a wire message, using the reverse global dictionary where possible
and a fresh local word list otherwise. -/
def ToProto (bag : ProtoBag) (names : List String) (rev : List (String × Int)) :
    Attributes :=
  let (es, w) := encodeEntries rev bag names []
  toAttributes es w

/-! ### Round-trip infrastructure -/

/-- `w'` extends `w`: every position of `w` holds the same word in `w'`. -/
def WordsExtend (w w' : List String) : Prop :=
  ∀ (k : Nat) (x : String), w[k]? = some x → w'[k]? = some x

theorem wordsExtend_refl (w : List String) : WordsExtend w w :=
  fun _ _ h => h

theorem wordsExtend_trans {w1 w2 w3 : List String}
    (h1 : WordsExtend w1 w2) (h2 : WordsExtend w2 w3) : WordsExtend w1 w3 :=
  fun k x h => h2 k x (h1 k x h)

theorem wordsExtend_append (w l : List String) : WordsExtend w (w ++ l) := by
  intro k x h
  have hk : k < w.length := by
    by_contra hk
    simp [List.getElem?_eq_none (Nat.le_of_not_lt hk)] at h
  rw [List.getElem?_append_left hk]
  exact h

/-- The reverse global dictionary is consistent with the global word list:
any index it returns is nonnegative and resolves back to the same name. -/
def RevOK (rev : List (String × Int)) (g : List String) : Prop :=
  ∀ n i, alookup rev n = some i → 0 ≤ i ∧ g[i.toNat]? = some n

/-- Decode one generic wire payload (the per-type payload decoders of
`GetBagFromProto`, bundled over the payload's constructor). -/
def decodeWireVal (g w : List String) : WireVal → Except Int AttributeValue
  | .s i => decodeStringVal g w i
  | .i64 v => .ok (.i64 v)
  | .dbl v => .ok (.dbl v)
  | .bl v => .ok (.bl v)
  | .ts v => .ok (.ts v)
  | .dur v => .ok (.dur v)
  | .bytes v => .ok (.bytes v)
  | .sm es => decodeStrMapVal g w es

theorem assignIndex_spec {rev : List (String × Int)} {g : List String}
    (hrev : RevOK rev g) {st st' : List String} {n : String} {i : Int}
    (heq : assignIndex rev st n = (i, st')) :
    WordsExtend st st' ∧
      ∀ w', WordsExtend st' w' → lookupName g w' i = some n := by
  unfold assignIndex at heq
  cases h : alookup rev n with
  | some j =>
    rw [h] at heq
    cases heq
    obtain ⟨hpos, hres⟩ := hrev n i h
    exact ⟨wordsExtend_refl st, fun w' _ => by simp [lookupName, hpos, hres]⟩
  | none =>
    rw [h] at heq
    cases heq
    refine ⟨wordsExtend_append st [n], fun w' hw' => ?_⟩
    have hlen : (st ++ [n])[st.length]? = some n := List.getElem?_concat_length st n
    have hw : w'[st.length]? = some n := hw' st.length n hlen
    have hneg : ¬ (0 : Int) ≤ -(st.length : Int) - 1 := by omega
    have harith : ((-(-(st.length : Int) - 1) - 1)).toNat = st.length := by omega
    simp only [lookupName, if_neg hneg, harith, hw]

theorem encodePairs_spec {rev : List (String × Int)} {g : List String}
    (hrev : RevOK rev g) (ps : List (String × String)) :
    ∀ {st st' : List String} {out : List (Int × Int)},
      encodePairs rev ps st = (out, st') →
      WordsExtend st st' ∧
        ∀ w', WordsExtend st' w' → decodePairs g w' out = .ok ps := by
  induction ps with
  | nil =>
    intro st st' out heq
    simp only [encodePairs] at heq
    cases heq
    exact ⟨wordsExtend_refl st, fun w' _ => rfl⟩
  | cons p rest ih =>
    intro st st' out heq
    obtain ⟨k, v⟩ := p
    obtain ⟨i, st1, hk⟩ : ∃ i st1, assignIndex rev st k = (i, st1) :=
      ⟨_, _, rfl⟩
    obtain ⟨j, st2, hv⟩ : ∃ j st2, assignIndex rev st1 v = (j, st2) :=
      ⟨_, _, rfl⟩
    obtain ⟨tl, st3, ht⟩ : ∃ tl st3, encodePairs rev rest st2 = (tl, st3) :=
      ⟨_, _, rfl⟩
    simp only [encodePairs, hk, hv, ht] at heq
    cases heq
    obtain ⟨hk1, hk2⟩ := assignIndex_spec hrev hk
    obtain ⟨hv1, hv2⟩ := assignIndex_spec hrev hv
    obtain ⟨ht1, ht2⟩ := ih ht
    refine ⟨wordsExtend_trans hk1 (wordsExtend_trans hv1 ht1), fun w' hw' => ?_⟩
    have hkr := hk2 w' (wordsExtend_trans hv1 (wordsExtend_trans ht1 hw'))
    have hvr := hv2 w' (wordsExtend_trans ht1 hw')
    have htr := ht2 w' hw'
    simp only [decodePairs, hkr, hvr, htr]

theorem encodeVal_spec {rev : List (String × Int)} {g : List String}
    (hrev : RevOK rev g) {v : AttributeValue} {st st' : List String} {wv : WireVal}
    (heq : encodeVal rev v st = (wv, st')) :
    WordsExtend st st' ∧
      ∀ w', WordsExtend st' w' → decodeWireVal g w' wv = .ok v := by
  cases v with
  | str s =>
    obtain ⟨i, st1, ha⟩ : ∃ i st1, assignIndex rev st s = (i, st1) := ⟨_, _, rfl⟩
    simp only [encodeVal, ha] at heq
    cases heq
    obtain ⟨h1, h2⟩ := assignIndex_spec hrev ha
    refine ⟨h1, fun w' hw' => ?_⟩
    simp only [decodeWireVal, decodeStringVal, h2 w' hw']
  | strMap es =>
    obtain ⟨ps, st1, hp⟩ : ∃ ps st1, encodePairs rev es st = (ps, st1) := ⟨_, _, rfl⟩
    simp only [encodeVal, hp] at heq
    cases heq
    obtain ⟨h1, h2⟩ := encodePairs_spec hrev es hp
    refine ⟨h1, fun w' hw' => ?_⟩
    simp only [decodeWireVal, decodeStrMapVal, h2 w' hw']
  | i64 n => simp only [encodeVal] at heq; cases heq
             exact ⟨wordsExtend_refl st, fun w' _ => rfl⟩
  | dbl n => simp only [encodeVal] at heq; cases heq
             exact ⟨wordsExtend_refl st, fun w' _ => rfl⟩
  | bl b => simp only [encodeVal] at heq; cases heq
            exact ⟨wordsExtend_refl st, fun w' _ => rfl⟩
  | ts n => simp only [encodeVal] at heq; cases heq
            exact ⟨wordsExtend_refl st, fun w' _ => rfl⟩
  | dur n => simp only [encodeVal] at heq; cases heq
             exact ⟨wordsExtend_refl st, fun w' _ => rfl⟩
  | bytes bs => simp only [encodeVal] at heq; cases heq
                exact ⟨wordsExtend_refl st, fun w' _ => rfl⟩

/-- A generic entry decodes to pair `p` under the final dictionaries. -/
def DecEntryOK (g w : List String) (e : Int × WireVal) (p : String × AttributeValue) :
    Prop :=
  lookupName g w e.1 = some p.1 ∧ decodeWireVal g w e.2 = .ok p.2

theorem encodeEntries_spec {rev : List (String × Int)} {g : List String}
    (hrev : RevOK rev g) (bag : ProtoBag) (names : List String) :
    ∀ {st st' : List String} {es : List (Int × WireVal)},
      encodeEntries rev bag names st = (es, st') →
      WordsExtend st st' ∧
        ∀ w', WordsExtend st' w' →
          (∀ e ∈ es,
            ∃ n v, n ∈ names ∧ alookup bag n = some v ∧ DecEntryOK g w' e (n, v)) ∧
          (∀ n ∈ names, ∀ v, alookup bag n = some v →
            ∃ e ∈ es, DecEntryOK g w' e (n, v)) := by
  induction names with
  | nil =>
    intro st st' es heq
    simp only [encodeEntries] at heq
    cases heq
    refine ⟨wordsExtend_refl st, fun w' _ => ⟨fun e he => absurd he (by simp), ?_⟩⟩
    intro n hn
    cases hn
  | cons n rest ih =>
    intro st st' es heq
    cases hbag : alookup bag n with
    | none =>
      simp only [encodeEntries, hbag] at heq
      obtain ⟨ih1, ih2⟩ := ih heq
      refine ⟨ih1, fun w' hw' => ?_⟩
      obtain ⟨hall, hcov⟩ := ih2 w' hw'
      constructor
      · intro e he
        obtain ⟨n', v', hn', hv', hd⟩ := hall e he
        exact ⟨n', v', List.mem_cons_of_mem _ hn', hv', hd⟩
      · intro m hm v hv
        rcases List.mem_cons.mp hm with h | h
        · subst h; rw [hbag] at hv; cases hv
        · exact hcov m h v hv
    | some v =>
      obtain ⟨i, st1, ha⟩ : ∃ i st1, assignIndex rev st n = (i, st1) := ⟨_, _, rfl⟩
      obtain ⟨wv, st2, hv⟩ : ∃ wv st2, encodeVal rev v st1 = (wv, st2) := ⟨_, _, rfl⟩
      obtain ⟨tl, st3, ht⟩ : ∃ tl st3, encodeEntries rev bag rest st2 = (tl, st3) :=
        ⟨_, _, rfl⟩
      simp only [encodeEntries, hbag, ha, hv, ht] at heq
      cases heq
      obtain ⟨ha1, ha2⟩ := assignIndex_spec hrev ha
      obtain ⟨hv1, hv2⟩ := encodeVal_spec hrev hv
      obtain ⟨ih1, ih2⟩ := ih ht
      refine ⟨wordsExtend_trans ha1 (wordsExtend_trans hv1 ih1), fun w' hw' => ?_⟩
      have hval := hv2 w' (wordsExtend_trans ih1 hw')
      have hname := ha2 w' (wordsExtend_trans hv1 (wordsExtend_trans ih1 hw'))
      obtain ⟨hall, hcov⟩ := ih2 w' hw'
      constructor
      · intro e he
        rcases List.mem_cons.mp he with h | h
        · subst h
          exact ⟨n, v, List.mem_cons_self n rest, hbag, hname, hval⟩
        · obtain ⟨n', v', hn', hv', hd⟩ := hall e h
          exact ⟨n', v', List.mem_cons_of_mem _ hn', hv', hd⟩
      · intro m hm u hu
        rcases List.mem_cons.mp hm with h | h
        · subst h
          rw [hbag] at hu
          cases hu
          exact ⟨(i, wv), List.mem_cons_self _ _, hname, hval⟩
        · obtain ⟨e, he, hd⟩ := hcov m h u hu
          exact ⟨e, List.mem_cons_of_mem _ he, hd⟩

/-- The resolution of one typed-map entry, as a function. -/
def resolveEntry {α : Type} (g w : List String) (f : α → Except Int AttributeValue)
    (e : Int × α) : Option (String × AttributeValue) :=
  match lookupName g w e.1, f e.2 with
  | some n, .ok v => some (n, v)
  | _, _ => none

theorem decodeList_ok_forall₂ {α : Type} {g w : List String}
    {f : α → Except Int AttributeValue} {l : List (Int × α)}
    {D : List (String × AttributeValue)} (h : decodeList g w f l = .ok D) :
    List.Forall₂ (fun e p => resolveEntry g w f e = some p) l D := by
  induction l generalizing D with
  | nil =>
    simp only [decodeList] at h
    cases h
    exact List.Forall₂.nil
  | cons e rest ih =>
    obtain ⟨i, a⟩ := e
    cases hn : lookupName g w i with
    | none => simp [decodeList, hn] at h
    | some n =>
      cases hf : f a with
      | error err => simp [decodeList, hn, hf] at h
      | ok v =>
        cases hd : decodeList g w f rest with
        | error err => simp [decodeList, hn, hf, hd] at h
        | ok tl =>
          simp only [decodeList, hn, hf, hd] at h
          cases h
          exact List.Forall₂.cons (by simp [resolveEntry, hn, hf]) (ih hd)

theorem decodeList_ok_of_resolve {α : Type} {g w : List String}
    {f : α → Except Int AttributeValue} {l : List (Int × α)}
    (h : ∀ e ∈ l, ∃ p, resolveEntry g w f e = some p) :
    ∃ D, decodeList g w f l = .ok D := by
  induction l with
  | nil => exact ⟨[], rfl⟩
  | cons e rest ih =>
    obtain ⟨i, a⟩ := e
    obtain ⟨p, hp⟩ := h (i, a) (List.mem_cons_self _ _)
    obtain ⟨D, hD⟩ := ih (fun e he => h e (List.mem_cons_of_mem _ he))
    unfold resolveEntry at hp
    cases hn : lookupName g w i with
    | none => rw [hn] at hp; cases hf : f a <;> simp [hf] at hp
    | some n =>
      cases hf : f a with
      | error err => rw [hn, hf] at hp; cases hp
      | ok v => exact ⟨(n, v) :: D, by simp only [decodeList, hn, hf, hD]⟩

theorem forall₂_mem_left {α β : Type} {R : α → β → Prop} {l : List α} {D : List β}
    (h : List.Forall₂ R l D) {e : α} (he : e ∈ l) : ∃ p ∈ D, R e p := by
  induction h with
  | nil => cases he
  | cons hr _ ih =>
    rcases List.mem_cons.mp he with h1 | h1
    · subst h1; exact ⟨_, List.mem_cons_self _ _, hr⟩
    · obtain ⟨p, hp, hrp⟩ := ih h1
      exact ⟨p, List.mem_cons_of_mem _ hp, hrp⟩

theorem forall₂_mem_right {α β : Type} {R : α → β → Prop} {l : List α} {D : List β}
    (h : List.Forall₂ R l D) {p : β} (hp : p ∈ D) : ∃ e ∈ l, R e p := by
  induction h with
  | nil => cases hp
  | cons hr _ ih =>
    rcases List.mem_cons.mp hp with h1 | h1
    · subst h1; exact ⟨_, List.mem_cons_self _ _, hr⟩
    · obtain ⟨e, he, hre⟩ := ih h1
      exact ⟨e, List.mem_cons_of_mem _ he, hre⟩

/-- Unfolds a successful `GetBagFromProto` into its eight typed decodes. -/
theorem getBagFromProto_ok_elim {attrs : Attributes} {g : List String} {D : ProtoBag}
    (h : GetBagFromProto attrs g = .ok D) :
    ∃ l1 l2 l3 l4 l5 l6 l7 l8,
      decodeList g attrs.words (decodeStringVal g attrs.words) attrs.strings = .ok l1 ∧
      decodeList g attrs.words (fun v => .ok (.i64 v)) attrs.int64s = .ok l2 ∧
      decodeList g attrs.words (fun v => .ok (.dbl v)) attrs.doubles = .ok l3 ∧
      decodeList g attrs.words (fun v => .ok (.bl v)) attrs.bools = .ok l4 ∧
      decodeList g attrs.words (fun v => .ok (.ts v)) attrs.timestamps = .ok l5 ∧
      decodeList g attrs.words (fun v => .ok (.dur v)) attrs.durations = .ok l6 ∧
      decodeList g attrs.words (fun v => .ok (.bytes v)) attrs.bytesA = .ok l7 ∧
      decodeList g attrs.words (decodeStrMapVal g attrs.words) attrs.stringMaps = .ok l8 ∧
      D = l1 ++ l2 ++ l3 ++ l4 ++ l5 ++ l6 ++ l7 ++ l8 := by
  unfold GetBagFromProto at h
  cases h1 : decodeList g attrs.words (decodeStringVal g attrs.words) attrs.strings with
  | error e => rw [h1] at h; cases h
  | ok l1 =>
  rw [h1] at h
  cases h2 : decodeList g attrs.words (fun v => .ok (.i64 v)) attrs.int64s with
  | error e => rw [h2] at h; cases h
  | ok l2 =>
  rw [h2] at h
  cases h3 : decodeList g attrs.words (fun v => .ok (.dbl v)) attrs.doubles with
  | error e => rw [h3] at h; cases h
  | ok l3 =>
  rw [h3] at h
  cases h4 : decodeList g attrs.words (fun v => .ok (.bl v)) attrs.bools with
  | error e => rw [h4] at h; cases h
  | ok l4 =>
  rw [h4] at h
  cases h5 : decodeList g attrs.words (fun v => .ok (.ts v)) attrs.timestamps with
  | error e => rw [h5] at h; cases h
  | ok l5 =>
  rw [h5] at h
  cases h6 : decodeList g attrs.words (fun v => .ok (.dur v)) attrs.durations with
  | error e => rw [h6] at h; cases h
  | ok l6 =>
  rw [h6] at h
  cases h7 : decodeList g attrs.words (fun v => .ok (.bytes v)) attrs.bytesA with
  | error e => rw [h7] at h; cases h
  | ok l7 =>
  rw [h7] at h
  cases h8 : decodeList g attrs.words (decodeStrMapVal g attrs.words) attrs.stringMaps with
  | error e => rw [h8] at h; cases h
  | ok l8 =>
  rw [h8] at h
  cases h
  exact ⟨l1, l2, l3, l4, l5, l6, l7, l8, rfl, rfl, rfl, rfl, rfl, rfl, rfl, rfl, rfl⟩

/-- A successful `GetBagFromProto` from successful typed decodes. -/
theorem getBagFromProto_ok_intro {attrs : Attributes} {g : List String}
    {l1 l2 l3 l4 l5 l6 l7 l8 : List (String × AttributeValue)}
    (h1 : decodeList g attrs.words (decodeStringVal g attrs.words) attrs.strings = .ok l1)
    (h2 : decodeList g attrs.words (fun v => .ok (.i64 v)) attrs.int64s = .ok l2)
    (h3 : decodeList g attrs.words (fun v => .ok (.dbl v)) attrs.doubles = .ok l3)
    (h4 : decodeList g attrs.words (fun v => .ok (.bl v)) attrs.bools = .ok l4)
    (h5 : decodeList g attrs.words (fun v => .ok (.ts v)) attrs.timestamps = .ok l5)
    (h6 : decodeList g attrs.words (fun v => .ok (.dur v)) attrs.durations = .ok l6)
    (h7 : decodeList g attrs.words (fun v => .ok (.bytes v)) attrs.bytesA = .ok l7)
    (h8 : decodeList g attrs.words (decodeStrMapVal g attrs.words) attrs.stringMaps = .ok l8) :
    GetBagFromProto attrs g = .ok (l1 ++ l2 ++ l3 ++ l4 ++ l5 ++ l6 ++ l7 ++ l8) := by
  unfold GetBagFromProto
  rw [h1, h2, h3, h4, h5, h6, h7, h8]

theorem resolveEntry_some_elim {α : Type} {g w : List String}
    {f : α → Except Int AttributeValue} {e : Int × α} {p : String × AttributeValue}
    (h : resolveEntry g w f e = some p) :
    lookupName g w e.1 = some p.1 ∧ f e.2 = .ok p.2 := by
  unfold resolveEntry at h
  cases hn : lookupName g w e.1 with
  | none => rw [hn] at h; cases hf : f e.2 <;> rw [hf] at h <;> cases h
  | some n =>
    rw [hn] at h
    cases hf : f e.2 with
    | error err => rw [hf] at h; cases h
    | ok v => rw [hf] at h; cases h; exact ⟨rfl, rfl⟩

theorem projS_spec (g w : List String) (e : Int × WireVal) (e' : Int × Int)
    (h : projS e = some e') :
    e.1 = e'.1 ∧ decodeWireVal g w e.2 = decodeStringVal g w e'.2 := by
  cases h2 : e.2 <;> rw [projS, h2] at h <;> cases h
  exact ⟨rfl, rfl⟩

theorem projI64_spec (g w : List String) (e : Int × WireVal) (e' : Int × Int)
    (h : projI64 e = some e') :
    e.1 = e'.1 ∧ decodeWireVal g w e.2 = .ok (.i64 e'.2) := by
  cases h2 : e.2 <;> rw [projI64, h2] at h <;> cases h
  exact ⟨rfl, rfl⟩

theorem projDbl_spec (g w : List String) (e : Int × WireVal) (e' : Int × Nat)
    (h : projDbl e = some e') :
    e.1 = e'.1 ∧ decodeWireVal g w e.2 = .ok (.dbl e'.2) := by
  cases h2 : e.2 <;> rw [projDbl, h2] at h <;> cases h
  exact ⟨rfl, rfl⟩

theorem projBl_spec (g w : List String) (e : Int × WireVal) (e' : Int × Bool)
    (h : projBl e = some e') :
    e.1 = e'.1 ∧ decodeWireVal g w e.2 = .ok (.bl e'.2) := by
  cases h2 : e.2 <;> rw [projBl, h2] at h <;> cases h
  exact ⟨rfl, rfl⟩

theorem projTs_spec (g w : List String) (e : Int × WireVal) (e' : Int × Int)
    (h : projTs e = some e') :
    e.1 = e'.1 ∧ decodeWireVal g w e.2 = .ok (.ts e'.2) := by
  cases h2 : e.2 <;> rw [projTs, h2] at h <;> cases h
  exact ⟨rfl, rfl⟩

theorem projDur_spec (g w : List String) (e : Int × WireVal) (e' : Int × Int)
    (h : projDur e = some e') :
    e.1 = e'.1 ∧ decodeWireVal g w e.2 = .ok (.dur e'.2) := by
  cases h2 : e.2 <;> rw [projDur, h2] at h <;> cases h
  exact ⟨rfl, rfl⟩

theorem projBytes_spec (g w : List String) (e : Int × WireVal) (e' : Int × List Nat)
    (h : projBytes e = some e') :
    e.1 = e'.1 ∧ decodeWireVal g w e.2 = .ok (.bytes e'.2) := by
  cases h2 : e.2 <;> rw [projBytes, h2] at h <;> cases h
  exact ⟨rfl, rfl⟩

theorem projSm_spec (g w : List String) (e : Int × WireVal) (e' : Int × List (Int × Int))
    (h : projSm e = some e') :
    e.1 = e'.1 ∧ decodeWireVal g w e.2 = decodeStrMapVal g w e'.2 := by
  cases h2 : e.2 <;> rw [projSm, h2] at h <;> cases h
  exact ⟨rfl, rfl⟩

/-- One typed map of an encoded message decodes successfully, every decoded
pair satisfies the per-pair property of the encoded entries, and every
encoded entry of this type reappears among the decoded pairs. -/
theorem typedDecode_full {α : Type} (g w : List String)
    (f : α → Except Int AttributeValue) (proj : Int × WireVal → Option (Int × α))
    (es : List (Int × WireVal)) (P : String → AttributeValue → Prop)
    (hproj : ∀ e e', proj e = some e' →
      e.1 = e'.1 ∧ decodeWireVal g w e.2 = f e'.2)
    (hall : ∀ e ∈ es, ∃ n v, P n v ∧ DecEntryOK g w e (n, v)) :
    ∃ D, decodeList g w f (es.filterMap proj) = .ok D ∧
      (∀ p ∈ D, P p.1 p.2) ∧
      (∀ e ∈ es, ∀ e', proj e = some e' →
        ∀ n v, DecEntryOK g w e (n, v) → (n, v) ∈ D) := by
  have hres : ∀ e' ∈ es.filterMap proj, ∃ p, resolveEntry g w f e' = some p := by
    intro e' he'
    obtain ⟨e, he, hpe⟩ := List.mem_filterMap.mp he'
    obtain ⟨h1, h2⟩ := hproj e e' hpe
    obtain ⟨n, v, _, hn, hv⟩ := hall e he
    refine ⟨(n, v), ?_⟩
    rw [h1] at hn
    rw [h2] at hv
    simp [resolveEntry, hn, hv]
  obtain ⟨D, hD⟩ := decodeList_ok_of_resolve hres
  have hf2 := decodeList_ok_forall₂ hD
  refine ⟨D, hD, ?_, ?_⟩
  · intro p hp
    obtain ⟨e', he', hre⟩ := forall₂_mem_right hf2 hp
    obtain ⟨e, he, hpe⟩ := List.mem_filterMap.mp he'
    obtain ⟨h1, h2⟩ := hproj e e' hpe
    obtain ⟨n, v, hP, hn, hv⟩ := hall e he
    obtain ⟨hrn, hrv⟩ := resolveEntry_some_elim hre
    rw [← h1] at hrn
    rw [← h2] at hrv
    rw [hn] at hrn
    rw [hv] at hrv
    cases hrn
    cases hrv
    have : p = (p.1, p.2) := rfl
    rw [this]
    exact hP
  · intro e he e' hpe n v hok
    have he' : e' ∈ es.filterMap proj := List.mem_filterMap.mpr ⟨e, he, hpe⟩
    obtain ⟨p, hp, hre⟩ := forall₂_mem_left hf2 he'
    obtain ⟨h1, h2⟩ := hproj e e' hpe
    obtain ⟨hrn, hrv⟩ := resolveEntry_some_elim hre
    rw [← h1] at hrn
    rw [← h2] at hrv
    obtain ⟨hn, hv⟩ := hok
    rw [hn] at hrn
    rw [hv] at hrv
    cases hrn
    cases hrv
    have : p = (p.1, p.2) := rfl
    rw [this] at hp
    exact hp

/-- All name indices carried by a wire message, across its typed maps. -/
def nameIndices (attrs : Attributes) : List Int :=
  attrs.strings.map Prod.fst ++ attrs.int64s.map Prod.fst ++
  attrs.doubles.map Prod.fst ++ attrs.bools.map Prod.fst ++
  attrs.timestamps.map Prod.fst ++ attrs.durations.map Prod.fst ++
  attrs.bytesA.map Prod.fst ++ attrs.stringMaps.map Prod.fst

/-- C1: codec round trip. For every bag `B` and every list of names `N`
present in `B`, decoding the wire message produced by encoding `B`
restricted to `N` — under any reverse global dictionary consistent with
the global word list, hence any mix of global-dictionary and
local-word-list resolution — succeeds, and yields a bag whose `Get`
agrees with `B` on every name of `N` and whose `Names` include every name
of `N`. -/
theorem C1_round_trip {bag : ProtoBag} {names : List String}
    {rev : List (String × Int)} {g : List String}
    (hrev : RevOK rev g)
    (hval : ∀ n ∈ names, (alookup bag n).isSome = true) :
    ∃ D, GetBagFromProto (ToProto bag names rev) g = .ok D ∧
      (∀ n ∈ names, ProtoBag.get D n = ProtoBag.get bag n) ∧
      (∀ n ∈ names, n ∈ ProtoBag.names D) := by
  obtain ⟨es, w, heq⟩ : ∃ es w, encodeEntries rev bag names [] = (es, w) := ⟨_, _, rfl⟩
  obtain ⟨_, hmain⟩ := encodeEntries_spec hrev bag names heq
  obtain ⟨hall, hcov⟩ := hmain w (wordsExtend_refl w)
  have hTo : ToProto bag names rev = toAttributes es w := by
    simp [ToProto, heq]
  have hall' : ∀ e ∈ es, ∃ n v,
      (n ∈ names ∧ alookup bag n = some v) ∧ DecEntryOK g w e (n, v) := by
    intro e he
    obtain ⟨n, v, h1, h2, h3⟩ := hall e he
    exact ⟨n, v, ⟨h1, h2⟩, h3⟩
  obtain ⟨D1, hD1, hP1, hM1⟩ := typedDecode_full g w (decodeStringVal g w) projS es _
    (projS_spec g w) hall'
  obtain ⟨D2, hD2, hP2, hM2⟩ := typedDecode_full g w (fun v => .ok (.i64 v)) projI64 es _
    (projI64_spec g w) hall'
  obtain ⟨D3, hD3, hP3, hM3⟩ := typedDecode_full g w (fun v => .ok (.dbl v)) projDbl es _
    (projDbl_spec g w) hall'
  obtain ⟨D4, hD4, hP4, hM4⟩ := typedDecode_full g w (fun v => .ok (.bl v)) projBl es _
    (projBl_spec g w) hall'
  obtain ⟨D5, hD5, hP5, hM5⟩ := typedDecode_full g w (fun v => .ok (.ts v)) projTs es _
    (projTs_spec g w) hall'
  obtain ⟨D6, hD6, hP6, hM6⟩ := typedDecode_full g w (fun v => .ok (.dur v)) projDur es _
    (projDur_spec g w) hall'
  obtain ⟨D7, hD7, hP7, hM7⟩ := typedDecode_full g w (fun v => .ok (.bytes v)) projBytes es _
    (projBytes_spec g w) hall'
  obtain ⟨D8, hD8, hP8, hM8⟩ := typedDecode_full g w (decodeStrMapVal g w) projSm es _
    (projSm_spec g w) hall'
  have hok : GetBagFromProto (toAttributes es w) g =
      .ok (D1 ++ D2 ++ D3 ++ D4 ++ D5 ++ D6 ++ D7 ++ D8) :=
    getBagFromProto_ok_intro hD1 hD2 hD3 hD4 hD5 hD6 hD7 hD8
  have huni : ∀ p ∈ D1 ++ D2 ++ D3 ++ D4 ++ D5 ++ D6 ++ D7 ++ D8,
      p.1 ∈ names ∧ alookup bag p.1 = some p.2 := by
    intro p hp
    simp only [List.mem_append] at hp
    rcases hp with ((((((h | h) | h) | h) | h) | h) | h) | h
    exacts [hP1 p h, hP2 p h, hP3 p h, hP4 p h, hP5 p h, hP6 p h, hP7 p h, hP8 p h]
  have hin : ∀ n ∈ names, ∀ v, alookup bag n = some v →
      (n, v) ∈ D1 ++ D2 ++ D3 ++ D4 ++ D5 ++ D6 ++ D7 ++ D8 := by
    intro n hn v hv
    obtain ⟨e, he, hd⟩ := hcov n hn v hv
    simp only [List.mem_append]
    cases h2 : e.2 with
    | s i =>
      exact .inl (.inl (.inl (.inl (.inl (.inl (.inl
        (hM1 e he (e.1, i) (by simp [projS, h2]) n v hd)))))))
    | i64 v' =>
      exact .inl (.inl (.inl (.inl (.inl (.inl (.inr
        (hM2 e he (e.1, v') (by simp [projI64, h2]) n v hd)))))))
    | dbl v' =>
      exact .inl (.inl (.inl (.inl (.inl (.inr
        (hM3 e he (e.1, v') (by simp [projDbl, h2]) n v hd))))))
    | bl v' =>
      exact .inl (.inl (.inl (.inl (.inr
        (hM4 e he (e.1, v') (by simp [projBl, h2]) n v hd)))))
    | ts v' =>
      exact .inl (.inl (.inl (.inr
        (hM5 e he (e.1, v') (by simp [projTs, h2]) n v hd))))
    | dur v' =>
      exact .inl (.inl (.inr
        (hM6 e he (e.1, v') (by simp [projDur, h2]) n v hd)))
    | bytes v' =>
      exact .inl (.inr (hM7 e he (e.1, v') (by simp [projBytes, h2]) n v hd))
    | sm v' =>
      exact .inr (hM8 e he (e.1, v') (by simp [projSm, h2]) n v hd)
  refine ⟨D1 ++ D2 ++ D3 ++ D4 ++ D5 ++ D6 ++ D7 ++ D8, by rw [hTo]; exact hok, ?_, ?_⟩
  · intro n hn
    obtain ⟨v, hv⟩ := Option.isSome_iff_exists.mp (hval n hn)
    have hmem := hin n hn v hv
    have hl : alookup (D1 ++ D2 ++ D3 ++ D4 ++ D5 ++ D6 ++ D7 ++ D8) n = some v := by
      refine alookup_eq_of_uniform _ n v hmem ?_
      intro p hp hpn
      obtain ⟨_, h2⟩ := huni p hp
      rw [hpn] at h2
      rw [hv] at h2
      exact (Option.some.inj h2).symm
    simp only [ProtoBag.get]
    rw [hl, hv]
  · intro n hn
    obtain ⟨v, hv⟩ := Option.isSome_iff_exists.mp (hval n hn)
    exact List.mem_map.mpr ⟨(n, v), hin n hn v hv, rfl⟩

/-- Sample global word list for the codec witnesses. -/
def sampleGlobalWords : List String := ["user"]

/-- Sample reverse global dictionary (one global hit; every other name
falls back to the local word list). -/
def sampleRev : List (String × Int) := [("user", 0)]

/-- Sample bag for the round-trip witness. -/
def sampleBag : ProtoBag :=
  [("user", .str "alice"), ("quota", .i64 7), ("flag", .bl true),
   ("tags", .strMap [("a", "b")])]

/-- Sample name list for the round-trip witness. -/
def sampleNames : List String := ["user", "quota", "flag", "tags"]

theorem sampleRev_ok : RevOK sampleRev sampleGlobalWords := by
  intro n i h
  simp only [sampleRev, alookup, Option.ite_none_right_eq_some, Option.some.injEq] at h
  obtain ⟨h1, h2⟩ := h
  subst h1
  subst h2
  exact ⟨le_refl 0, rfl⟩

/-- Witness for C1: the round-trip theorem applied to a concrete bag using
both dictionary tiers. -/
theorem C1_round_trip_witness :
    (∀ n ∈ sampleNames, (alookup sampleBag n).isSome = true) ∧
    (∃ D, GetBagFromProto (ToProto sampleBag sampleNames sampleRev) sampleGlobalWords = .ok D ∧
      (∀ n ∈ sampleNames, ProtoBag.get D n = ProtoBag.get sampleBag n) ∧
      (∀ n ∈ sampleNames, n ∈ ProtoBag.names D)) :=
  ⟨by decide, C1_round_trip sampleRev_ok (by decide)⟩

/-- C3: decoding is all-or-nothing. If any entry's name index fails to
resolve against its dictionary tier, `GetBagFromProto` returns an error
and never a (partial) bag. -/
theorem C3_all_or_nothing {attrs : Attributes} {g : List String}
    (hbad : ∃ i ∈ nameIndices attrs, lookupName g attrs.words i = none) :
    (∃ e, GetBagFromProto attrs g = .error e) ∧
      ∀ D, GetBagFromProto attrs g ≠ .ok D := by
  have hmain : ∀ D, GetBagFromProto attrs g ≠ .ok D := by
    intro D hres
    obtain ⟨l1, l2, l3, l4, l5, l6, l7, l8, h1, h2, h3, h4, h5, h6, h7, h8, _⟩ :=
      getBagFromProto_ok_elim hres
    obtain ⟨i, hi, hnone⟩ := hbad
    have hcontra : ∀ {α : Type} (f : α → Except Int AttributeValue)
        (l : List (Int × α)) (D' : List (String × AttributeValue)),
        decodeList g attrs.words f l = .ok D' → i ∈ l.map Prod.fst → False := by
      intro α f l D' hok hmem
      obtain ⟨e, he, hei⟩ := List.mem_map.mp hmem
      obtain ⟨p, _, hre⟩ := forall₂_mem_left (decodeList_ok_forall₂ hok) he
      obtain ⟨hn, _⟩ := resolveEntry_some_elim hre
      rw [hei] at hn
      rw [hnone] at hn
      cases hn
    unfold nameIndices at hi
    simp only [List.mem_append] at hi
    rcases hi with ((((((hh | hh) | hh) | hh) | hh) | hh) | hh) | hh
    exacts [hcontra _ _ _ h1 hh, hcontra _ _ _ h2 hh, hcontra _ _ _ h3 hh,
            hcontra _ _ _ h4 hh, hcontra _ _ _ h5 hh, hcontra _ _ _ h6 hh,
            hcontra _ _ _ h7 hh, hcontra _ _ _ h8 hh]
  refine ⟨?_, hmain⟩
  cases hres : GetBagFromProto attrs g with
  | error e => exact ⟨e, rfl⟩
  | ok D => exact absurd hres (hmain D)

/-- Sample malformed wire message for the C3 witness: local index `-24` is
out of range for a ten-word local list (matching the attribute package
test `TestProtoBag_Errors`). -/
def badAttrs : Attributes :=
  { Attributes.empty with
    words := ["M0", "M1", "M2", "M3", "M4", "M5", "M6", "M7", "M8", "M9"],
    strings := [(-24, 25)] }

/-- Witness for C3: the all-or-nothing theorem applied to the malformed
message of the attribute package tests. -/
theorem C3_all_or_nothing_witness :
    (∃ i ∈ nameIndices badAttrs, lookupName sampleGlobalWords badAttrs.words i = none) ∧
    ((∃ e, GetBagFromProto badAttrs sampleGlobalWords = .error e) ∧
      ∀ D, GetBagFromProto badAttrs sampleGlobalWords ≠ .ok D) :=
  ⟨⟨-24, by decide, by decide⟩, C3_all_or_nothing ⟨-24, by decide, by decide⟩⟩

/-! ### MutableBag

Modelled from the spec, sections 3, 4.2 and 4.3: the implementation of
`attribute.MutableBag` is absent from the sources; only its tests
(`TestBag`, `TestMerge`, `TestMergeErrors`, `TestMutableBag_Child`) and
callers are present. A mutable bag owns a local override set and a
reference to exactly one parent; `Done()` nulls the parent reference and
every operation on a released bag fails loudly. Release of a parent with
live children is deferred until all children are released, as pinned by
`TestMutableBag_Child` (`mb.Done()` with live children leaves `mb.parent`
non-nil; a child's `Done()` nulls only that child's parent reference).

Bags live in a store (`BagStore`); a bag is its index into the store, and
a bag's parent reference is one of: released (the nulled reference of a
freed bag), the global `empty` root bag, another store index, or a
proto-backed immutable bag. -/

inductive ParentRef where
  | released
  | emptyRoot
  | bag (i : Nat)
  | proto (vals : List (String × AttributeValue))
deriving DecidableEq, Repr

/-- One mutable bag: local overrides, parent reference, the number of
children not yet released, and whether `Done()` has been requested. -/
structure BagNode where
  vals : List (String × AttributeValue)
  parent : ParentRef
  liveChildren : Nat
  doneRequested : Bool
deriving DecidableEq, Repr

/-- The store of all mutable bags created so far; a bag is an index. -/
structure BagStore where
  nodes : List BagNode
deriving DecidableEq, Repr

/-- Replace the node at index `i` by `f` of it (identity elsewhere). -/
def updateNodes {β : Type} : List β → Nat → (β → β) → List β
  | [], _, _ => []
  | x :: xs, 0, f => f x :: xs
  | x :: xs, k + 1, f => x :: updateNodes xs k f

theorem updateNodes_length {β : Type} (l : List β) (i : Nat) (f : β → β) :
    (updateNodes l i f).length = l.length := by
  induction l generalizing i with
  | nil => rfl
  | cons x xs ih =>
    cases i with
    | zero => rfl
    | succ k => simpa [updateNodes] using ih k

theorem updateNodes_get_self {β : Type} (f : β → β) {l : List β} {i : Nat} {x : β}
    (h : l[i]? = some x) : (updateNodes l i f)[i]? = some (f x) := by
  induction l generalizing i with
  | nil => cases h
  | cons y ys ih =>
    cases i with
    | zero =>
      simp only [List.getElem?_cons_zero, Option.some.injEq] at h
      subst h
      simp [updateNodes]
    | succ k =>
      simp only [List.getElem?_cons_succ] at h
      simp only [updateNodes, List.getElem?_cons_succ]
      exact ih h

theorem updateNodes_get_ne {β : Type} (f : β → β) (l : List β) {i j : Nat}
    (hne : i ≠ j) : (updateNodes l i f)[j]? = l[j]? := by
  induction l generalizing i j with
  | nil => rfl
  | cons y ys ih =>
    cases i with
    | zero =>
      cases j with
      | zero => exact absurd rfl hne
      | succ m => simp [updateNodes]
    | succ k =>
      cases j with
      | zero => simp [updateNodes]
      | succ m =>
        simp only [updateNodes, List.getElem?_cons_succ]
        exact ih (fun h => hne (congrArg Nat.succ h))

/-- Update node `i` of the store. -/
def BagStore.upd (s : BagStore) (i : Nat) (f : BagNode → BagNode) : BagStore :=
  ⟨updateNodes s.nodes i f⟩

/-- Look up node `i` of the store. -/
def BagStore.node? (s : BagStore) (i : Nat) : Option BagNode :=
  s.nodes[i]?

/-- Well-formed store: every in-store parent reference points to an
earlier (smaller) index — parents are always created before children. -/
def WFStore (s : BagStore) : Prop :=
  ∀ i nd, s.node? i = some nd → ∀ p, nd.parent = .bag p → p < i

/-- The chain lookup behind `Get`: local overrides first, then the parent
chain. The fuel argument bounds the chain length; with a well-formed
store, `i + 1` units always suffice. -/
def getVal (s : BagStore) : Nat → Nat → String → Option AttributeValue
  | 0, _, _ => none
  | fuel + 1, i, k =>
    match s.node? i with
    | none => none
    | some nd =>
      match alookup nd.vals k with
      | some v => some v
      | none =>
        match nd.parent with
        | .bag p => getVal s fuel p k
        | .proto vals => alookup vals k
        | _ => none

/-- Modelled from the spec, section 4.2 (`Get`): local override set first,
else parent; fails loudly on a released bag. -/
def MutableBag.get (s : BagStore) (i : Nat) (k : String) :
    Except String (Option AttributeValue) :=
  match s.node? i with
  | none => .error "unknown bag"
  | some nd =>
    if nd.parent = .released then .error "use of released bag"
    else .ok (getVal s (i + 1) i k)

/-- Modelled from the spec, section 4.3 (`Set`): installs a local
override; fails loudly on a released bag. -/
def MutableBag.set (s : BagStore) (i : Nat) (k : String) (v : AttributeValue) :
    Except String BagStore :=
  match s.node? i with
  | none => .error "unknown bag"
  | some nd =>
    if nd.parent = .released then .error "use of released bag"
    else .ok (s.upd i fun nd => { nd with vals := aset nd.vals k v })

/-- Modelled from the spec, section 4.2 (`Child`): returns a fresh mutable
layer whose parent is the receiver; panics when called on a released bag.
The new child is appended to the store and the receiver's live-children
count grows by one. -/
def MutableBag.child (s : BagStore) (i : Nat) : Except String (BagStore × Nat) :=
  match s.node? i with
  | none => .error "unknown bag"
  | some nd =>
    if nd.parent = .released then .error "can not create child of released bag"
    else .ok
      (⟨(updateNodes s.nodes i fun nd => { nd with liveChildren := nd.liveChildren + 1 })
          ++ [⟨[], .bag i, 0, false⟩]⟩,
       s.nodes.length)

/-- Release a bag's reference in its parent after the bag itself has been
released: decrement the parent's live-children count and, if the parent
had already requested `Done()` and this was its last live child, release
the parent too, cascading upward. -/
def releaseUp (s : BagStore) : Nat → ParentRef → BagStore
  | _, .released => s
  | _, .emptyRoot => s
  | _, .proto _ => s
  | 0, .bag _ => s
  | fuel + 1, .bag p =>
    match s.node? p with
    | none => s
    | some nd =>
      if nd.doneRequested ∧ nd.liveChildren - 1 = 0 then
        releaseUp
          (s.upd p fun n => { n with liveChildren := 0, parent := .released })
          fuel nd.parent
      else s.upd p fun n => { n with liveChildren := n.liveChildren - 1 }

/-- Modelled from the spec, section 4.3 (`Done`), with the deferred
release pinned by `TestMutableBag_Child`: fails loudly on an
already-released bag; with live children it only records the request and
the bag stays usable; with none it nulls the parent reference and
notifies the parent chain. -/
def MutableBag.done (s : BagStore) (i : Nat) : Except String BagStore :=
  match s.node? i with
  | none => .error "unknown bag"
  | some nd =>
    if nd.parent = .released then .error "use of released bag"
    else if nd.liveChildren = 0 then
      .ok (releaseUp
        (s.upd i fun n => { n with parent := .released, doneRequested := true })
        s.nodes.length nd.parent)
    else .ok (s.upd i fun n => { n with doneRequested := true })

/-- The part of a node that `Get` can observe: overrides and parent. -/
def nodeView (o : Option BagNode) :
    Option (List (String × AttributeValue) × ParentRef) :=
  o.map fun nd => (nd.vals, nd.parent)

/-- Chain lookups agree on two stores that agree, up to the start index,
on every node's overrides and parent (the store walked on the left is
well-formed, so the chain only descends). -/
theorem getVal_frame {s s' : BagStore} (hwf : WFStore s) :
    ∀ (fuel i : Nat) (k : String),
      (∀ j, j ≤ i → nodeView (s.node? j) = nodeView (s'.node? j)) →
      getVal s fuel i k = getVal s' fuel i k := by
  intro fuel
  induction fuel with
  | zero => intro i k _; rfl
  | succ f ih =>
    intro i k hagree
    have hv := hagree i (le_refl i)
    cases hs : s.node? i with
    | none =>
      rw [hs] at hv
      have hs' : s'.node? i = none := by
        cases hx : s'.node? i with
        | none => rfl
        | some nd' => rw [hx] at hv; cases hv
      simp only [getVal, hs, hs']
    | some nd =>
      rw [hs] at hv
      obtain ⟨nd', hs', hview⟩ : ∃ nd', s'.node? i = some nd' ∧
          nd'.vals = nd.vals ∧ nd'.parent = nd.parent := by
        cases hx : s'.node? i with
        | none => rw [hx] at hv; cases hv
        | some nd' =>
          rw [hx] at hv
          have hv' : some (nd.vals, nd.parent) = some (nd'.vals, nd'.parent) := hv
          have hv2 := Option.some.inj hv'
          simp only [Prod.mk.injEq] at hv2
          exact ⟨nd', rfl, hv2.1.symm, hv2.2.symm⟩
      obtain ⟨hvals, hpar⟩ := hview
      simp only [getVal, hs, hs', hvals, hpar]
      cases hl : alookup nd.vals k with
      | some v => rfl
      | none =>
        cases hp : nd.parent with
        | bag p =>
          have hpi : p < i := hwf i nd hs p hp
          exact ih p k (fun j hj => hagree j (le_trans hj (Nat.le_of_lt hpi)))
        | released => rfl
        | emptyRoot => rfl
        | proto vals => rfl

/-- Inversion of a successful `Child`. -/
theorem child_ok_elim {s : BagStore} {i : Nat} {s' : BagStore} {c : Nat}
    (h : MutableBag.child s i = .ok (s', c)) :
    ∃ nd, s.node? i = some nd ∧ nd.parent ≠ .released ∧
      c = s.nodes.length ∧
      s' = ⟨(updateNodes s.nodes i
               fun nd => { nd with liveChildren := nd.liveChildren + 1 })
             ++ [⟨[], .bag i, 0, false⟩]⟩ := by
  unfold MutableBag.child at h
  cases hs : s.node? i with
  | none => rw [hs] at h; cases h
  | some nd =>
    simp only [hs] at h
    by_cases hrel : nd.parent = .released
    · rw [if_pos hrel] at h; cases h
    · rw [if_neg hrel] at h
      cases h
      exact ⟨nd, rfl, hrel, rfl, rfl⟩

/-- After `Child`, the new node sits at the end of the store. -/
theorem child_node_at_child {s : BagStore} {i : Nat} {s' : BagStore} {c : Nat}
    (h : MutableBag.child s i = .ok (s', c)) :
    s'.node? c = some ⟨[], .bag i, 0, false⟩ := by
  obtain ⟨nd, _, _, hc, hs'⟩ := child_ok_elim h
  subst hs'
  subst hc
  show ((updateNodes s.nodes i _) ++ [_])[s.nodes.length]? = _
  have hlen : (updateNodes s.nodes i
      (fun nd => { nd with liveChildren := nd.liveChildren + 1 })).length
      = s.nodes.length := updateNodes_length _ _ _
  rw [← hlen]
  exact List.getElem?_concat_length _ _

/-- After `Child`, the receiver's observable view is unchanged (only its
live-children count grew). -/
theorem child_node_at_parent {s : BagStore} {i : Nat} {s' : BagStore} {c : Nat}
    (h : MutableBag.child s i = .ok (s', c)) :
    ∃ nd, s.node? i = some nd ∧ nd.parent ≠ .released ∧
      s'.node? i = some { nd with liveChildren := nd.liveChildren + 1 } := by
  obtain ⟨nd, hs, hrel, hc, hs'⟩ := child_ok_elim h
  subst hs'
  refine ⟨nd, hs, hrel, ?_⟩
  have hi : i < s.nodes.length := by
    have := List.getElem?_eq_some_iff.mp hs
    exact this.1
  show ((updateNodes s.nodes i _) ++ [_])[i]? = _
  rw [List.getElem?_append_left (by rw [updateNodes_length]; exact hi)]
  exact updateNodes_get_self _ hs

/-- After `Child`, every other node is unchanged. -/
theorem child_node_other {s : BagStore} {i : Nat} {s' : BagStore} {c : Nat}
    (h : MutableBag.child s i = .ok (s', c)) {j : Nat} (hji : j ≠ i) (hjc : j ≠ c) :
    s'.node? j = s.node? j := by
  obtain ⟨nd, hs, hrel, hc, hs'⟩ := child_ok_elim h
  subst hs'
  subst hc
  by_cases hj : j < s.nodes.length
  · show ((updateNodes s.nodes i _) ++ [_])[j]? = _
    rw [List.getElem?_append_left (by rw [updateNodes_length]; exact hj)]
    exact updateNodes_get_ne _ _ (fun hh => hji hh.symm)
  · have h1 : s.nodes[j]? = none := List.getElem?_eq_none (Nat.le_of_not_lt hj)
    have hj2 : s.nodes.length + 1 ≤ j := by
      rcases Nat.lt_or_ge j (s.nodes.length + 1) with hlt | hge
      · exact absurd (by omega : j = s.nodes.length) hjc
      · exact hge
    have h2 : ((updateNodes s.nodes i
        (fun nd => { nd with liveChildren := nd.liveChildren + 1 }))
        ++ [(⟨[], .bag i, 0, false⟩ : BagNode)])[j]? = none := by
      apply List.getElem?_eq_none
      simp only [List.length_append, List.length_singleton, updateNodes_length]
      exact hj2
    show ((updateNodes s.nodes i _) ++ [_])[j]? = _
    rw [h2]
    exact h1.symm

/-- `Child` preserves store well-formedness. -/
theorem WFStore_child {s : BagStore} (hwf : WFStore s) {i : Nat} {s' : BagStore}
    {c : Nat} (h : MutableBag.child s i = .ok (s', c)) : WFStore s' := by
  intro j ndj hj p hp
  obtain ⟨nd, hs, _, hc, _⟩ := child_ok_elim h
  have hi : i < s.nodes.length := (List.getElem?_eq_some_iff.mp hs).1
  by_cases hjc : j = c
  · subst hjc
    rw [child_node_at_child h] at hj
    cases hj
    cases hp
    omega
  · by_cases hji : j = i
    · subst hji
      obtain ⟨nd2, hs2, _, hj2⟩ := child_node_at_parent h
      rw [hj2] at hj
      have hnd : ndj = { nd2 with liveChildren := nd2.liveChildren + 1 } :=
        (Option.some.inj hj).symm
      subst hnd
      have hp2 : nd2.parent = .bag p := hp
      exact hwf j nd2 hs2 p hp2
    · rw [child_node_other h hji hjc] at hj
      exact hwf j ndj hj p hp

/-- `releaseUp` never revives a released bag. -/
theorem releaseUp_preserves_released :
    ∀ (fuel : Nat) (pref : ParentRef) {s : BagStore} {j : Nat} {ndj : BagNode},
      s.node? j = some ndj → ndj.parent = .released →
      ∃ nd', (releaseUp s fuel pref).node? j = some nd' ∧ nd'.parent = .released := by
  intro fuel
  induction fuel with
  | zero =>
    intro pref s j ndj hj hrel
    cases pref <;> exact ⟨ndj, hj, hrel⟩
  | succ f ih =>
    intro pref s j ndj hj hrel
    cases pref with
    | released => exact ⟨ndj, hj, hrel⟩
    | emptyRoot => exact ⟨ndj, hj, hrel⟩
    | proto vals => exact ⟨ndj, hj, hrel⟩
    | bag p =>
      cases hp : s.node? p with
      | none => exact ⟨ndj, by simp only [releaseUp, hp]; exact hj, hrel⟩
      | some ndp =>
        by_cases hcond : ndp.doneRequested ∧ ndp.liveChildren - 1 = 0
        · have hstep : releaseUp s (f + 1) (.bag p) =
              releaseUp
                (s.upd p fun n => { n with liveChildren := 0, parent := .released })
                f ndp.parent := by
            simp only [releaseUp, hp, if_pos hcond]
          rw [hstep]
          by_cases hjp : j = p
          · subst hjp
            exact ih ndp.parent (updateNodes_get_self _ hp) rfl
          · exact ih ndp.parent
              (show (updateNodes s.nodes p _)[j]? = some ndj by
                rw [updateNodes_get_ne _ _ (fun hh => hjp hh.symm)]; exact hj)
              hrel
        · have hstep : releaseUp s (f + 1) (.bag p) =
              s.upd p fun n => { n with liveChildren := n.liveChildren - 1 } := by
            simp only [releaseUp, hp, if_neg hcond]
          rw [hstep]
          by_cases hjp : j = p
          · subst hjp
            rw [hp] at hj
            cases hj
            exact ⟨_, updateNodes_get_self _ hp, hrel⟩
          · exact ⟨ndj,
              show (updateNodes s.nodes p _)[j]? = some ndj by
                rw [updateNodes_get_ne _ _ (fun hh => hjp hh.symm)]; exact hj,
              hrel⟩

theorem node?_upd_self {s : BagStore} {i : Nat} {nd : BagNode}
    (h : s.node? i = some nd) (f : BagNode → BagNode) :
    (s.upd i f).node? i = some (f nd) :=
  updateNodes_get_self f h

theorem node?_upd_ne {s : BagStore} {i j : Nat} (hne : i ≠ j)
    (f : BagNode → BagNode) : (s.upd i f).node? j = s.node? j :=
  updateNodes_get_ne f s.nodes hne

/-- Inversion of a successful `Set`. -/
theorem set_ok_elim {s : BagStore} {i : Nat} {k : String} {v : AttributeValue}
    {s' : BagStore} (h : MutableBag.set s i k v = .ok s') :
    ∃ nd, s.node? i = some nd ∧ nd.parent ≠ .released ∧
      s' = s.upd i fun nd => { nd with vals := aset nd.vals k v } := by
  unfold MutableBag.set at h
  cases hs : s.node? i with
  | none => rw [hs] at h; cases h
  | some nd =>
    simp only [hs] at h
    by_cases hrel : nd.parent = .released
    · rw [if_pos hrel] at h; cases h
    · rw [if_neg hrel] at h
      cases h
      exact ⟨nd, rfl, hrel, rfl⟩

/-- C5: child isolation. Mutating a child (or a second, sibling child)
never changes what its parent (or the first child) returns from `Get`. -/
theorem C5_child_isolation {s : BagStore} (hwf : WFStore s) {p : Nat}
    {s1 : BagStore} {c : Nat} (hc : MutableBag.child s p = .ok (s1, c))
    {k : String} {v : AttributeValue} {s2 : BagStore}
    (hset : MutableBag.set s1 c k v = .ok s2) :
    MutableBag.get s2 p k = MutableBag.get s p k ∧
    (∀ (s1' : BagStore) (c2 : Nat), MutableBag.child s1 p = .ok (s1', c2) →
      ∀ (k' : String) (v' : AttributeValue) (s2' : BagStore),
        MutableBag.set s1' c2 k' v' = .ok s2' →
        MutableBag.get s2' c k' = MutableBag.get s1' c k') := by
  obtain ⟨pn, hps, hprel, hclen, _⟩ := child_ok_elim hc
  have hplt : p < s.nodes.length := (List.getElem?_eq_some_iff.mp hps).1
  have hcc := child_node_at_child hc
  have hlen1 : s1.nodes.length = s.nodes.length + 1 := by
    obtain ⟨_, _, _, _, hs1eq⟩ := child_ok_elim hc
    rw [hs1eq]
    simp [updateNodes_length]
  constructor
  · obtain ⟨cn, hcn, hcrel, hs2⟩ := set_ok_elim hset
    have hpc : p ≠ c := by omega
    obtain ⟨pn2, hps2, hprel2, hs1p⟩ := child_node_at_parent hc
    have hs2p : s2.node? p =
        some { pn2 with liveChildren := pn2.liveChildren + 1 } := by
      rw [hs2, node?_upd_ne (fun hh => hpc hh.symm)]
      exact hs1p
    have hagree : ∀ j, j ≤ p → nodeView (s.node? j) = nodeView (s2.node? j) := by
      intro j hj
      have hjc : j ≠ c := by omega
      have hs2j : s2.node? j = s1.node? j := by
        rw [hs2]
        exact node?_upd_ne (fun hh => hjc hh.symm) _
      rw [hs2j]
      by_cases hjp : j = p
      · subst hjp
        rw [hps2, hs1p]
        rfl
      · rw [child_node_other hc hjp hjc]
    have hframe := getVal_frame hwf (p + 1) p k hagree
    have e1 : MutableBag.get s p k = .ok (getVal s (p + 1) p k) := by
      simp [MutableBag.get, hps2, hprel2]
    have e2 : MutableBag.get s2 p k = .ok (getVal s2 (p + 1) p k) := by
      simp [MutableBag.get, hs2p, hprel2]
    rw [e1, e2, hframe]
  · intro s1' c2 hc2 k' v' s2' hset'
    have hwf1 : WFStore s1 := WFStore_child hwf hc
    have hwf1' : WFStore s1' := WFStore_child hwf1 hc2
    obtain ⟨_, _, _, hclen2, _⟩ := child_ok_elim hc2
    have hcc2 : c < c2 := by omega
    obtain ⟨cn2, hcn2, hcrel2, hs2'⟩ := set_ok_elim hset'
    have hcp : c ≠ p := by omega
    have hcne2 : c ≠ c2 := by omega
    have hcs1' : s1'.node? c = some ⟨[], .bag p, 0, false⟩ := by
      rw [child_node_other hc2 hcp hcne2]
      exact hcc
    have hcs2' : s2'.node? c = some ⟨[], .bag p, 0, false⟩ := by
      rw [hs2', node?_upd_ne (fun hh => hcne2 hh.symm)]
      exact hcs1'
    have hagree : ∀ j, j ≤ c → nodeView (s1'.node? j) = nodeView (s2'.node? j) := by
      intro j hj
      have hjc2 : j ≠ c2 := by omega
      rw [hs2', node?_upd_ne (fun hh => hjc2 hh.symm)]
    have hframe := getVal_frame hwf1' (c + 1) c k' hagree
    have hne : (ParentRef.bag p) ≠ .released := fun hh => by cases hh
    have e1 : MutableBag.get s1' c k' = .ok (getVal s1' (c + 1) c k') := by
      simp [MutableBag.get, hcs1']
    have e2 : MutableBag.get s2' c k' = .ok (getVal s2' (c + 1) c k') := by
      simp [MutableBag.get, hcs2']
    rw [e1, e2, hframe]

/-- C8: use after release fails loudly. On a released bag every `Get`,
`Set`, `Child` and `Done` returns an error (the model of a panic); and a
second `Done` on a bag just released by `Done` errors as well. -/
theorem C8_use_after_release {s : BagStore} {i : Nat} {nd : BagNode}
    (h : s.node? i = some nd) :
    (nd.parent = .released →
      (∀ k, ∃ e, MutableBag.get s i k = .error e) ∧
      (∀ k v, ∃ e, MutableBag.set s i k v = .error e) ∧
      (∃ e, MutableBag.child s i = .error e) ∧
      (∃ e, MutableBag.done s i = .error e)) ∧
    (nd.liveChildren = 0 →
      ∀ s', MutableBag.done s i = .ok s' → ∃ e, MutableBag.done s' i = .error e) := by
  constructor
  · intro hrel
    refine ⟨fun k => ⟨"use of released bag", ?_⟩,
      fun k v => ⟨"use of released bag", ?_⟩,
      ⟨"can not create child of released bag", ?_⟩,
      ⟨"use of released bag", ?_⟩⟩
    · simp [MutableBag.get, h, hrel]
    · simp [MutableBag.set, h, hrel]
    · simp [MutableBag.child, h, hrel]
    · simp [MutableBag.done, h, hrel]
  · intro hlc s' hdone
    unfold MutableBag.done at hdone
    simp only [h] at hdone
    by_cases hrel : nd.parent = .released
    · rw [if_pos hrel] at hdone
      cases hdone
    · rw [if_neg hrel, if_pos hlc] at hdone
      cases hdone
      obtain ⟨nd2, hnd2, hrel2⟩ := releaseUp_preserves_released s.nodes.length nd.parent
        (node?_upd_self h
          fun n => { n with parent := .released, doneRequested := true })
        rfl
      exact ⟨"use of released bag", by simp [MutableBag.done, hnd2, hrel2]⟩

/-- C10: deferred release with live children. `Done` on a parent with a
live child does not release it (its parent reference survives and it
stays usable); a child's `Done` releases only that child and, while other
children remain live, still leaves the parent unreleased; the parent is
actually released only when its last live child is released. -/
theorem C10_deferred_release {s : BagStore} {p : Nat} {pn : BagNode}
    (hp : s.node? p = some pn) (hlive : pn.parent ≠ .released)
    (hchildren : 1 ≤ pn.liveChildren) :
    ∃ s', MutableBag.done s p = .ok s' ∧
      s'.node? p = some { pn with doneRequested := true } ∧
      (∀ k v, ∃ s'', MutableBag.set s' p k v = .ok s'') ∧
      (∀ c cn, s'.node? c = some cn → cn.parent = .bag p → cn.liveChildren = 0 →
        c ≠ p →
        ∃ s2, MutableBag.done s' c = .ok s2 ∧
          (∃ cn', s2.node? c = some cn' ∧ cn'.parent = .released) ∧
          (2 ≤ pn.liveChildren →
            ∃ pn', s2.node? p = some pn' ∧ pn'.parent = pn.parent ∧
              pn'.liveChildren = pn.liveChildren - 1) ∧
          (pn.liveChildren = 1 →
            ∃ pn', s2.node? p = some pn' ∧ pn'.parent = .released)) := by
  have hlc : pn.liveChildren ≠ 0 := by omega
  have hdone : MutableBag.done s p =
      .ok (s.upd p fun n => { n with doneRequested := true }) := by
    simp [MutableBag.done, hp, hlive, hlc]
  refine ⟨_, hdone, node?_upd_self hp _, ?_, ?_⟩
  · intro k v
    refine ⟨(s.upd p fun n => { n with doneRequested := true }).upd p
      (fun nd => { nd with vals := aset nd.vals k v }), ?_⟩
    simp [MutableBag.set,
      node?_upd_self hp (fun n => { n with doneRequested := true }), hlive]
  · intro c cn hcn hcp hclc hcp_ne
    set s' := s.upd p fun n => { n with doneRequested := true } with hsA_eq
    have hps' : s'.node? p = some { pn with doneRequested := true } :=
      node?_upd_self hp _
    have hcrel : cn.parent ≠ .released := by
      rw [hcp]
      intro hh
      cases hh
    have hdone2 : MutableBag.done s' c =
        .ok (releaseUp
          (s'.upd c fun n => { n with parent := .released, doneRequested := true })
          s'.nodes.length cn.parent) := by
      simp [MutableBag.done, hcn, hcrel, hclc]
    set s'' := s'.upd c fun n => { n with parent := .released, doneRequested := true }
      with hsB_eq
    have hcs'' : s''.node? c =
        some { cn with parent := .released, doneRequested := true } :=
      node?_upd_self hcn _
    have hps'' : s''.node? p = some { pn with doneRequested := true } := by
      rw [hsB_eq, node?_upd_ne hcp_ne]
      exact hps'
    have hlen : 1 ≤ s'.nodes.length := by
      have := (List.getElem?_eq_some_iff.mp hps').1
      omega
    obtain ⟨fl, hfl⟩ : ∃ fl, s'.nodes.length = fl + 1 :=
      ⟨s'.nodes.length - 1, by omega⟩
    rw [hcp, hfl] at hdone2
    by_cases hlast : pn.liveChildren = 1
    · have hstep : releaseUp s'' (fl + 1) (.bag p) =
          releaseUp
            (s''.upd p fun n => { n with liveChildren := 0, parent := .released })
            fl ({ pn with doneRequested := true } : BagNode).parent := by
        simp only [releaseUp, hps'']
        rw [if_pos (⟨trivial, by omega⟩ : True ∧ pn.liveChildren - 1 = 0)]
      rw [hstep] at hdone2
      set s3 := s''.upd p fun n => { n with liveChildren := 0, parent := .released }
        with hs3def
      have hcs3 : s3.node? c =
          some { cn with parent := .released, doneRequested := true } := by
        rw [hs3def, node?_upd_ne (fun hh => hcp_ne hh.symm)]
        exact hcs''
      have hps3 : s3.node? p =
          some ⟨pn.vals, .released, 0, true⟩ := node?_upd_self hps'' _
      refine ⟨_, hdone2, ?_, ?_, ?_⟩
      · exact releaseUp_preserves_released fl _ hcs3 rfl
      · intro h2
        omega
      · intro _
        obtain ⟨pn', hpn', hpr'⟩ := releaseUp_preserves_released fl
          ({ pn with doneRequested := true } : BagNode).parent hps3 rfl
        exact ⟨pn', hpn', hpr'⟩
    · have hstep : releaseUp s'' (fl + 1) (.bag p) =
          s''.upd p fun n => { n with liveChildren := n.liveChildren - 1 } := by
        simp only [releaseUp, hps'']
        rw [if_neg (fun hcc : True ∧ pn.liveChildren - 1 = 0 => by
          have := hcc.2; omega)]
      rw [hstep] at hdone2
      refine ⟨_, hdone2, ?_, ?_, ?_⟩
      · refine ⟨{ cn with parent := .released, doneRequested := true }, ?_, rfl⟩
        rw [node?_upd_ne (fun hh => hcp_ne hh.symm)]
        exact hcs''
      · intro _
        refine ⟨_, node?_upd_self hps'' _, rfl, rfl⟩
      · intro h1
        omega

/-- One-bag store for the isolation witness: a root bag holding `k = 1`. -/
def storeA : BagStore := ⟨[⟨[("k", .i64 1)], .emptyRoot, 0, false⟩]⟩

/-- `storeA` after `Child()`. -/
def storeA1 : BagStore :=
  ⟨[⟨[("k", .i64 1)], .emptyRoot, 1, false⟩, ⟨[], .bag 0, 0, false⟩]⟩

/-- `storeA1` after the child overrides `k` with `2`. -/
def storeA2 : BagStore :=
  ⟨[⟨[("k", .i64 1)], .emptyRoot, 1, false⟩, ⟨[("k", .i64 2)], .bag 0, 0, false⟩]⟩

theorem storeA_wf : WFStore storeA := by
  intro i nd h p hp
  cases i with
  | zero =>
    simp only [storeA, BagStore.node?, List.getElem?_cons_zero,
      Option.some.injEq] at h
    subst h
    cases hp
  | succ k =>
    simp only [storeA, BagStore.node?, List.getElem?_cons_succ,
      List.getElem?_nil] at h
    cases h

/-- Witness for C5: a child override of `k` leaves the parent's `k`
untouched. -/
theorem C5_child_isolation_witness :
    MutableBag.child storeA 0 = .ok (storeA1, 1) ∧
    MutableBag.set storeA1 1 "k" (.i64 2) = .ok storeA2 ∧
    MutableBag.get storeA2 0 "k" = MutableBag.get storeA 0 "k" := by
  have h1 : MutableBag.child storeA 0 = .ok (storeA1, 1) := by rfl
  have h2 : MutableBag.set storeA1 1 "k" (.i64 2) = .ok storeA2 := by rfl
  exact ⟨h1, h2, (C5_child_isolation storeA_wf h1 h2).1⟩

/-- One-bag store holding a released bag, for the use-after-release
witness. -/
def storeR : BagStore := ⟨[⟨[], .released, 0, true⟩]⟩

/-- One-bag store holding a live root bag with no children. -/
def storeL : BagStore := ⟨[⟨[], .emptyRoot, 0, false⟩]⟩

/-- Witness for C8: every operation on a released bag errors, and a second
`Done` after a releasing `Done` errors. -/
theorem C8_use_after_release_witness :
    storeR.node? 0 = some ⟨[], .released, 0, true⟩ ∧
    (∃ e, MutableBag.get storeR 0 "k" = .error e) ∧
    (∃ e, MutableBag.set storeR 0 "k" (.i64 5) = .error e) ∧
    (∃ e, MutableBag.child storeR 0 = .error e) ∧
    (∃ e, MutableBag.done storeR 0 = .error e) ∧
    (∃ e, MutableBag.done storeR 0 = .error e) := by
  have h : storeR.node? 0 = some ⟨[], .released, 0, true⟩ := rfl
  have hmain := (C8_use_after_release h).1 rfl
  have hL : storeL.node? 0 = some ⟨[], .emptyRoot, 0, false⟩ := rfl
  have hLdone : MutableBag.done storeL 0 = .ok storeR := by rfl
  have h2 := (C8_use_after_release hL).2 rfl storeR hLdone
  exact ⟨h, hmain.1 "k", hmain.2.1 "k" (.i64 5), hmain.2.2.1, hmain.2.2.2, h2⟩

/-- Three-bag store for the deferred-release witness: a root bag with two
live children. -/
def storeP : BagStore :=
  ⟨[⟨[], .emptyRoot, 2, false⟩, ⟨[], .bag 0, 0, false⟩, ⟨[], .bag 0, 0, false⟩]⟩

/-- Witness for C10: `Done` on a parent with two live children defers its
release; releasing one child keeps the parent alive, releasing the last
one releases it. -/
theorem C10_deferred_release_witness :
    storeP.node? 0 = some ⟨[], .emptyRoot, 2, false⟩ ∧
    (∃ s', MutableBag.done storeP 0 = .ok s' ∧
      s'.node? 0 = some { (⟨[], .emptyRoot, 2, false⟩ : BagNode) with
        doneRequested := true } ∧
      (∀ k v, ∃ s'', MutableBag.set s' 0 k v = .ok s'') ∧
      (∀ c cn, s'.node? c = some cn → cn.parent = .bag 0 → cn.liveChildren = 0 →
        c ≠ 0 →
        ∃ s2, MutableBag.done s' c = .ok s2 ∧
          (∃ cn', s2.node? c = some cn' ∧ cn'.parent = .released) ∧
          (2 ≤ (⟨[], .emptyRoot, 2, false⟩ : BagNode).liveChildren →
            ∃ pn', s2.node? 0 = some pn' ∧
              pn'.parent = (⟨[], .emptyRoot, 2, false⟩ : BagNode).parent ∧
              pn'.liveChildren =
                (⟨[], .emptyRoot, 2, false⟩ : BagNode).liveChildren - 1) ∧
          ((⟨[], .emptyRoot, 2, false⟩ : BagNode).liveChildren = 1 →
            ∃ pn', s2.node? 0 = some pn' ∧ pn'.parent = .released))) :=
  ⟨rfl, C10_deferred_release rfl (by decide) (by decide)⟩

/-! ### Merge -/

/-- One pass of `Merge`: process the pending override pairs of the
argument bags in order. `seen` records what earlier argument pairs set;
a pair whose name `seen` maps to an unequal value stops the pass with
that name, leaving the receiver as merged so far. -/
def mergeStep (recv seen : List (String × AttributeValue)) :
    List (String × AttributeValue) →
      List (String × AttributeValue) × List (String × AttributeValue) × Option String
  | [] => (recv, seen, none)
  | (k, v) :: rest =>
    match alookup seen k with
    | some v' => if v = v' then mergeStep recv seen rest else (recv, seen, some k)
    | none => mergeStep (aset recv k v) ((k, v) :: seen) rest

/-- Modelled from the spec, section 4.3 (`Merge`; the implementation is
absent from the sources): copy every local override of each argument bag
into the receiver; fail with an error naming the offending key the first
time two argument bags set the same name to unequal values; the receiver
keeps whatever had been merged before the conflict (no rollback). -/
def MutableBag.merge (s : BagStore) (i : Nat) (args : List Nat) :
    BagStore × Option String :=
  match s.node? i with
  | none => (s, some "unknown bag")
  | some nd =>
    let pairs := (args.map fun a =>
      match s.node? a with | some an => an.vals | none => []).flatten
    let out := mergeStep nd.vals [] pairs
    (s.upd i fun n => { n with vals := out.1 },
     out.2.2.map fun k => "conflicting value for attribute " ++ k)

/-- `mergeStep` distributes over an append: a conflict in the first part
aborts, otherwise the second part continues from the first's state. -/
theorem mergeStep_append (l1 l2 recv seen : List (String × AttributeValue)) :
    mergeStep recv seen (l1 ++ l2) =
      match mergeStep recv seen l1 with
      | (r, sn, none) => mergeStep r sn l2
      | (r, sn, some k) => (r, sn, some k) := by
  induction l1 generalizing recv seen with
  | nil => simp [mergeStep]
  | cons p rest ih =>
    obtain ⟨k, v⟩ := p
    cases hs : alookup seen k with
    | some v' =>
      by_cases hv : v = v'
      · simp only [List.cons_append, mergeStep, hs, if_pos hv]
        exact ih recv seen
      · simp only [List.cons_append, mergeStep, hs, if_neg hv]
    | none =>
      simp only [List.cons_append, mergeStep, hs]
      exact ih _ _

/-- `mergeStep` only prepends fresh names to `seen`, so existing `seen`
bindings survive into the output `seen`. -/
theorem mergeStep_seen_mono (ps : List (String × AttributeValue)) :
    ∀ recv seen k v, alookup seen k = some v →
      alookup (mergeStep recv seen ps).2.1 k = some v := by
  induction ps with
  | nil => intro recv seen k v h; exact h
  | cons p rest ih =>
    intro recv seen k v h
    obtain ⟨k1, v1⟩ := p
    cases hs : alookup seen k1 with
    | some w =>
      by_cases hv : v1 = w
      · simp only [mergeStep, hs, if_pos hv]
        exact ih recv seen k v h
      · simp only [mergeStep, hs, if_neg hv]
        exact h
    | none =>
      simp only [mergeStep, hs]
      apply ih
      have hk : k1 ≠ k := fun hh => by rw [hh] at hs; rw [hs] at h; cases h
      simp only [alookup, if_neg hk]
      exact h

/-- If every `seen` binding is already present in the receiver, it is
still present in the receiver after any `mergeStep` pass. -/
theorem mergeStep_recv_keeps_seen (ps : List (String × AttributeValue)) :
    ∀ recv seen,
      (∀ k v, alookup seen k = some v → alookup recv k = some v) →
      ∀ k v, alookup seen k = some v →
        alookup (mergeStep recv seen ps).1 k = some v := by
  induction ps with
  | nil => intro recv seen hinv k v h; exact hinv k v h
  | cons p rest ih =>
    intro recv seen hinv k v h
    obtain ⟨k1, v1⟩ := p
    cases hs : alookup seen k1 with
    | some w =>
      by_cases hv : v1 = w
      · simp only [mergeStep, hs, if_pos hv]
        exact ih recv seen hinv k v h
      · simp only [mergeStep, hs, if_neg hv]
        exact hinv k v h
    | none =>
      simp only [mergeStep, hs]
      have hk : k1 ≠ k := fun hh => by rw [hh] at hs; rw [hs] at h; cases h
      refine ih _ _ ?_ k v ?_
      · intro k2 v2 h2
        by_cases hk2 : k1 = k2
        · subst hk2
          have h2' : v1 = v2 := by simpa [alookup] using h2
          subst h2'
          exact alookup_aset_self recv k1 v1
        · simp only [alookup, if_neg hk2] at h2
          rw [alookup_aset_ne recv k1 k2 v1 hk2]
          exact hinv k2 v2 h2
      · simp only [alookup, if_neg hk]
        exact h

/-- The `seen`-in-receiver invariant also holds between the two outputs of
a pass. -/
theorem mergeStep_inv_out (ps : List (String × AttributeValue)) :
    ∀ recv seen,
      (∀ k v, alookup seen k = some v → alookup recv k = some v) →
      ∀ k v, alookup (mergeStep recv seen ps).2.1 k = some v →
        alookup (mergeStep recv seen ps).1 k = some v := by
  induction ps with
  | nil => intro recv seen hinv k v h; exact hinv k v h
  | cons p rest ih =>
    intro recv seen hinv k v h
    obtain ⟨k1, v1⟩ := p
    cases hs : alookup seen k1 with
    | some w =>
      by_cases hv : v1 = w
      · simp only [mergeStep, hs, if_pos hv] at h ⊢
        exact ih recv seen hinv k v h
      · simp only [mergeStep, hs, if_neg hv] at h ⊢
        exact hinv k v h
    | none =>
      simp only [mergeStep, hs] at h ⊢
      refine ih _ _ ?_ k v h
      intro k2 v2 h2
      by_cases hk2 : k1 = k2
      · subst hk2
        have h2' : v1 = v2 := by simpa [alookup] using h2
        subst h2'
        exact alookup_aset_self recv k1 v1
      · simp only [alookup, if_neg hk2] at h2
        rw [alookup_aset_ne recv k1 k2 v1 hk2]
        exact hinv k2 v2 h2

/-- A pass whose pairs are value-uniform among themselves and consistent
with `seen` raises no conflict, and lands every pair in both outputs. -/
theorem mergeStep_success (ps : List (String × AttributeValue)) :
    ∀ recv seen,
      (∀ k v, alookup seen k = some v → alookup recv k = some v) →
      (∀ k v v', (k, v) ∈ ps → (k, v') ∈ ps → v = v') →
      (∀ k v v', (k, v) ∈ ps → alookup seen k = some v' → v' = v) →
      (mergeStep recv seen ps).2.2 = none ∧
      (∀ k v, (k, v) ∈ ps → alookup (mergeStep recv seen ps).2.1 k = some v) ∧
      (∀ k v, (k, v) ∈ ps → alookup (mergeStep recv seen ps).1 k = some v) := by
  induction ps with
  | nil =>
    intro recv seen hinv _ _
    exact ⟨rfl, fun k v h => absurd h (List.not_mem_nil _), fun k v h => absurd h (List.not_mem_nil _)⟩
  | cons p rest ih =>
    intro recv seen hinv huni hseen
    obtain ⟨k1, v1⟩ := p
    have hhead : (k1, v1) ∈ (k1, v1) :: rest := List.mem_cons_self _ _
    cases hs : alookup seen k1 with
    | some w =>
      have hv : v1 = w := (hseen k1 v1 w hhead hs).symm
      simp only [mergeStep, hs, if_pos hv]
      obtain ⟨he, hsn, hrc⟩ := ih recv seen hinv
        (fun k v v' hv1 hv2 => huni k v v' (List.mem_cons_of_mem _ hv1) (List.mem_cons_of_mem _ hv2))
        (fun k v v' hv1 hv2 => hseen k v v' (List.mem_cons_of_mem _ hv1) hv2)
      refine ⟨he, ?_, ?_⟩
      · intro k v hkv
        rcases List.mem_cons.mp hkv with hh | hh
        · cases hh
          rw [← hv] at hs
          exact mergeStep_seen_mono rest recv seen k1 v1 hs
        · exact hsn k v hh
      · intro k v hkv
        rcases List.mem_cons.mp hkv with hh | hh
        · cases hh
          rw [← hv] at hs
          exact mergeStep_recv_keeps_seen rest recv seen hinv k1 v1 hs
        · exact hrc k v hh
    | none =>
      simp only [mergeStep, hs]
      have hinv' : ∀ k v, alookup ((k1, v1) :: seen) k = some v →
          alookup (aset recv k1 v1) k = some v := by
        intro k v h2
        by_cases hk2 : k1 = k
        · subst hk2
          have h2' : v1 = v := by simpa [alookup] using h2
          subst h2'
          exact alookup_aset_self recv k1 v1
        · simp only [alookup, if_neg hk2] at h2
          rw [alookup_aset_ne recv k1 k v1 hk2]
          exact hinv k v h2
      have hseen' : ∀ k v v', (k, v) ∈ rest →
          alookup ((k1, v1) :: seen) k = some v' → v' = v := by
        intro k v v' hkv h2
        by_cases hk2 : k1 = k
        · subst hk2
          have h2' : v1 = v' := by simpa [alookup] using h2
          subst h2'
          exact huni k1 v1 v hhead (List.mem_cons_of_mem _ hkv)
        · simp only [alookup, if_neg hk2] at h2
          exact hseen k v v' (List.mem_cons_of_mem _ hkv) h2
      obtain ⟨he, hsn, hrc⟩ := ih (aset recv k1 v1) ((k1, v1) :: seen) hinv'
        (fun k v v' hv1 hv2 => huni k v v' (List.mem_cons_of_mem _ hv1) (List.mem_cons_of_mem _ hv2))
        hseen'
      refine ⟨he, ?_, ?_⟩
      · intro k v hkv
        rcases List.mem_cons.mp hkv with hh | hh
        · cases hh
          exact mergeStep_seen_mono rest _ _ k1 v1 (by simp [alookup])
        · exact hsn k v hh
      · intro k v hkv
        rcases List.mem_cons.mp hkv with hh | hh
        · cases hh
          exact mergeStep_recv_keeps_seen rest _ _ hinv' k1 v1 (by simp [alookup])
        · exact hrc k v hh

/-- A pair whose name `seen` already maps to an unequal value guarantees a
conflict. -/
theorem mergeStep_conflict_of_seen (ps : List (String × AttributeValue)) :
    ∀ recv seen k v v', (k, v) ∈ ps → alookup seen k = some v' → v' ≠ v →
      ((mergeStep recv seen ps).2.2).isSome = true := by
  induction ps with
  | nil => intro recv seen k v v' h; cases h
  | cons p rest ih =>
    intro recv seen k v v' hmem hs hne
    obtain ⟨k1, v1⟩ := p
    cases hs1 : alookup seen k1 with
    | some w =>
      by_cases hv : v1 = w
      · simp only [mergeStep, hs1, if_pos hv]
        rcases List.mem_cons.mp hmem with hh | hh
        · cases hh
          rw [hs1] at hs
          cases hs
          exact absurd hv.symm hne
        · exact ih recv seen k v v' hh hs hne
      · simp only [mergeStep, hs1, if_neg hv]
        rfl
    | none =>
      simp only [mergeStep, hs1]
      rcases List.mem_cons.mp hmem with hh | hh
      · cases hh
        rw [hs1] at hs
        cases hs
      · have hk : k1 ≠ k := fun hhh => by rw [hhh] at hs1; rw [hs1] at hs; cases hs
        exact ih _ _ k v v' hh (by simp only [alookup, if_neg hk]; exact hs) hne

/-- Two unequal bindings of the same name among the pending pairs
guarantee a conflict. -/
theorem mergeStep_conflict_of_pair (ps : List (String × AttributeValue)) :
    ∀ recv seen k v1 v2, (k, v1) ∈ ps → (k, v2) ∈ ps → v1 ≠ v2 →
      ((mergeStep recv seen ps).2.2).isSome = true := by
  induction ps with
  | nil => intro recv seen k v1 v2 h; cases h
  | cons p rest ih =>
    intro recv seen k v1 v2 hm1 hm2 hne
    obtain ⟨k1, w1⟩ := p
    cases hs1 : alookup seen k1 with
    | some w =>
      by_cases hv : w1 = w
      · simp only [mergeStep, hs1, if_pos hv]
        rcases List.mem_cons.mp hm1 with hh1 | hh1 <;>
          rcases List.mem_cons.mp hm2 with hh2 | hh2
        · cases hh1; cases hh2; exact absurd rfl hne
        · cases hh1
          subst hv
          exact mergeStep_conflict_of_seen rest recv seen k v2 v1 hh2 hs1 hne
        · cases hh2
          subst hv
          exact mergeStep_conflict_of_seen rest recv seen k v1 v2 hh1 hs1
            (fun hh => hne hh.symm)
        · exact ih recv seen k v1 v2 hh1 hh2 hne
      · simp only [mergeStep, hs1, if_neg hv]
        rfl
    | none =>
      simp only [mergeStep, hs1]
      rcases List.mem_cons.mp hm1 with hh1 | hh1 <;>
        rcases List.mem_cons.mp hm2 with hh2 | hh2
      · cases hh1; cases hh2; exact absurd rfl hne
      · cases hh1
        exact mergeStep_conflict_of_seen rest _ _ k v2 v1 hh2 (by simp [alookup]) hne
      · cases hh2
        exact mergeStep_conflict_of_seen rest _ _ k v1 v2 hh1 (by simp [alookup])
          (fun hh => hne hh.symm)
      · exact ih _ _ k v1 v2 hh1 hh2 hne

/-- A reported conflict is genuine: the offending name carries two unequal
bindings among the pending pairs or against `seen`. -/
theorem mergeStep_some_elim (ps : List (String × AttributeValue)) :
    ∀ recv seen k, (mergeStep recv seen ps).2.2 = some k →
      ∃ v v', (k, v) ∈ ps ∧ v ≠ v' ∧
        (alookup seen k = some v' ∨ (k, v') ∈ ps) := by
  induction ps with
  | nil => intro recv seen k h; cases h
  | cons p rest ih =>
    intro recv seen k h
    obtain ⟨k1, v1⟩ := p
    cases hs1 : alookup seen k1 with
    | some w =>
      by_cases hv : v1 = w
      · simp only [mergeStep, hs1, if_pos hv] at h
        obtain ⟨v, v', hm, hne, hor⟩ := ih recv seen k h
        exact ⟨v, v', List.mem_cons_of_mem _ hm, hne,
          hor.imp id (List.mem_cons_of_mem _)⟩
      · simp only [mergeStep, hs1, if_neg hv] at h
        cases h
        exact ⟨v1, w, List.mem_cons_self _ _, hv, Or.inl hs1⟩
    | none =>
      simp only [mergeStep, hs1] at h
      obtain ⟨v, v', hm, hne, hor⟩ := ih _ _ k h
      rcases hor with hsn | hmm
      · by_cases hk : k1 = k
        · subst hk
          have hsn' : v1 = v' := by simpa [alookup] using hsn
          subst hsn'
          exact ⟨v, v1, List.mem_cons_of_mem _ hm, hne, Or.inr (List.mem_cons_self _ _)⟩
        · simp only [alookup, if_neg hk] at hsn
          exact ⟨v, v', List.mem_cons_of_mem _ hm, hne, Or.inl hsn⟩
      · exact ⟨v, v', List.mem_cons_of_mem _ hm, hne,
          Or.inr (List.mem_cons_of_mem _ hmm)⟩

/-- In a list with no duplicate names, a name determines its value. -/
theorem keysNodup_val_unique {l : List (String × AttributeValue)}
    (hnd : (l.map Prod.fst).Nodup) {k : String} {v v' : AttributeValue}
    (h1 : (k, v) ∈ l) (h2 : (k, v') ∈ l) : v = v' := by
  induction l with
  | nil => cases h1
  | cons p rest ih =>
    simp only [List.map_cons, List.nodup_cons] at hnd
    rcases List.mem_cons.mp h1 with hh1 | hh1 <;>
      rcases List.mem_cons.mp h2 with hh2 | hh2
    · cases hh1; cases hh2; rfl
    · cases hh1
      have hnk : ∀ x, (k, x) ∉ rest := by simpa using hnd.1
      exact absurd hh2 (hnk v')
    · cases hh2
      have hnk : ∀ x, (k, x) ∉ rest := by simpa using hnd.1
      exact absurd hh1 (hnk v)
    · exact ih hnd.2 hh1 hh2

/-- C6: merge semantics. Merging two argument bags into a receiver fails
exactly when the two bags set the same name to unequal values; the error
message contains the offending name; on success every merged binding is
visible through the receiver's `Get`; and the first bag's bindings are
retained in the receiver even when the merge fails (partial merge, no
rollback). -/
theorem C6_merge_semantics {s : BagStore} {i b1 b2 : Nat} {rn n1 n2 : BagNode}
    (hri : s.node? i = some rn) (hrel : rn.parent ≠ .released)
    (h1 : s.node? b1 = some n1) (h2 : s.node? b2 = some n2)
    (hnd1 : (n1.vals.map Prod.fst).Nodup) (hnd2 : (n2.vals.map Prod.fst).Nodup) :
    ((MutableBag.merge s i [b1, b2]).2.isSome = true ↔
       ∃ k v1 v2, (k, v1) ∈ n1.vals ∧ (k, v2) ∈ n2.vals ∧ v1 ≠ v2) ∧
    (∀ m, (MutableBag.merge s i [b1, b2]).2 = some m →
       ∃ k pre post, m = pre ++ k ++ post ∧
         ∃ v1 v2, (k, v1) ∈ n1.vals ∧ (k, v2) ∈ n2.vals ∧ v1 ≠ v2) ∧
    ((MutableBag.merge s i [b1, b2]).2 = none →
       ∀ k v, ((k, v) ∈ n1.vals ∨ (k, v) ∈ n2.vals) →
         MutableBag.get (MutableBag.merge s i [b1, b2]).1 i k = .ok (some v)) ∧
    (∀ k v, (k, v) ∈ n1.vals →
       MutableBag.get (MutableBag.merge s i [b1, b2]).1 i k = .ok (some v)) := by
  have hvac : ∀ k v, alookup ([] : List (String × AttributeValue)) k = some v →
      alookup rn.vals k = some v := by
    intro k v h
    cases h
  have hvac2 : ∀ (l : List (String × AttributeValue)) k v v',
      (k, v) ∈ l → alookup ([] : List (String × AttributeValue)) k = some v' →
      v' = v := by
    intro l k v v' _ h
    cases h
  have hmerge : MutableBag.merge s i [b1, b2] =
      (s.upd i fun n =>
        { n with vals := (mergeStep rn.vals [] (n1.vals ++ n2.vals)).1 },
       (mergeStep rn.vals [] (n1.vals ++ n2.vals)).2.2.map
         fun k => "conflicting value for attribute " ++ k) := by
    simp [MutableBag.merge, hri, h1, h2]
  have hconf : ∀ k, (mergeStep rn.vals [] (n1.vals ++ n2.vals)).2.2 = some k →
      ∃ v1 v2, (k, v1) ∈ n1.vals ∧ (k, v2) ∈ n2.vals ∧ v1 ≠ v2 := by
    intro k hk
    obtain ⟨v, v', hm, hne, hor⟩ :=
      mergeStep_some_elim (n1.vals ++ n2.vals) rn.vals [] k hk
    rcases hor with hsn | hm2
    · cases hsn
    · rcases List.mem_append.mp hm with hma | hma <;>
        rcases List.mem_append.mp hm2 with hmb | hmb
      · exact absurd (keysNodup_val_unique hnd1 hma hmb) hne
      · exact ⟨v, v', hma, hmb, hne⟩
      · exact ⟨v', v, hmb, hma, fun hh => hne hh.symm⟩
      · exact absurd (keysNodup_val_unique hnd2 hma hmb) hne
  have hiff : (mergeStep rn.vals [] (n1.vals ++ n2.vals)).2.2.isSome = true ↔
      ∃ k v1 v2, (k, v1) ∈ n1.vals ∧ (k, v2) ∈ n2.vals ∧ v1 ≠ v2 := by
    constructor
    · intro hsome
      obtain ⟨k, hk⟩ := Option.isSome_iff_exists.mp hsome
      obtain ⟨v1, v2, hm1, hm2, hne⟩ := hconf k hk
      exact ⟨k, v1, v2, hm1, hm2, hne⟩
    · intro ⟨k, v1, v2, hm1, hm2, hne⟩
      exact mergeStep_conflict_of_pair (n1.vals ++ n2.vals) rn.vals [] k v1 v2
        (List.mem_append_left _ hm1) (List.mem_append_right _ hm2) hne
  have hget : ∀ k v,
      alookup (mergeStep rn.vals [] (n1.vals ++ n2.vals)).1 k = some v →
      MutableBag.get (MutableBag.merge s i [b1, b2]).1 i k = .ok (some v) := by
    intro k v hkv
    rw [hmerge]
    have hnode := node?_upd_self hri
      (fun n => { n with vals := (mergeStep rn.vals [] (n1.vals ++ n2.vals)).1 })
    simp [MutableBag.get, hnode, hrel, getVal, hkv]
  refine ⟨?_, ?_, ?_, ?_⟩
  · rw [hmerge]
    simpa using hiff
  · intro m hm
    rw [hmerge] at hm
    simp only [Option.map_eq_some'] at hm
    obtain ⟨k, hk, hmsg⟩ := hm
    obtain ⟨v1, v2, hm1, hm2, hne⟩ := hconf k hk
    refine ⟨k, "conflicting value for attribute ", "", ?_, v1, v2, hm1, hm2, hne⟩
    rw [← hmsg]
    simp
  · intro hnone k v hmem
    rw [hmerge] at hnone
    simp only [Option.map_eq_none'] at hnone
    have hagree : ∀ k' v' v'', (k', v') ∈ n1.vals ++ n2.vals →
        (k', v'') ∈ n1.vals ++ n2.vals → v' = v'' := by
      intro k' v' v'' hma hmb
      rcases List.mem_append.mp hma with ha | ha <;>
        rcases List.mem_append.mp hmb with hb | hb
      · exact keysNodup_val_unique hnd1 ha hb
      · by_contra hne
        have := mergeStep_conflict_of_pair (n1.vals ++ n2.vals) rn.vals [] k' v' v''
          (List.mem_append_left _ ha) (List.mem_append_right _ hb) hne
        simp [hnone] at this
      · by_contra hne
        have := mergeStep_conflict_of_pair (n1.vals ++ n2.vals) rn.vals [] k' v'' v'
          (List.mem_append_left _ hb) (List.mem_append_right _ ha)
          (fun hh => hne hh.symm)
        simp [hnone] at this
      · exact keysNodup_val_unique hnd2 ha hb
    obtain ⟨_, _, hrc⟩ := mergeStep_success (n1.vals ++ n2.vals) rn.vals [] hvac
      hagree (hvac2 _)
    refine hget k v (hrc k v ?_)
    rcases hmem with h | h
    exacts [List.mem_append_left _ h, List.mem_append_right _ h]
  · intro k v hmem
    obtain ⟨p1err, p1seen, _⟩ := mergeStep_success n1.vals rn.vals [] hvac
      (fun k' v' v'' ha hb => keysNodup_val_unique hnd1 ha hb) (hvac2 _)
    obtain ⟨r, sn, e, hps1⟩ :
        ∃ r sn e, mergeStep rn.vals [] n1.vals = (r, sn, e) := ⟨_, _, _, rfl⟩
    rw [hps1] at p1err p1seen
    simp only at p1err
    subst p1err
    have hres : mergeStep rn.vals [] (n1.vals ++ n2.vals) =
        mergeStep r sn n2.vals := by
      rw [mergeStep_append, hps1]
    have hinvout := mergeStep_inv_out n1.vals rn.vals [] hvac
    rw [hps1] at hinvout
    simp only at hinvout p1seen
    have hkeep := mergeStep_recv_keeps_seen n2.vals r sn hinvout k v
      (p1seen k v hmem)
    refine hget k v ?_
    rw [hres]
    exact hkeep

/-- Store for the merge-conflict witness: a root receiver with two
children both setting `FOO`, to unequal values (as in `TestMergeErrors`). -/
def storeM : BagStore :=
  ⟨[⟨[], .emptyRoot, 2, false⟩,
    ⟨[("FOO", .str "X")], .bag 0, 0, false⟩,
    ⟨[("FOO", .str "Y")], .bag 0, 0, false⟩]⟩

/-- Store for the merge-success witness: a root receiver with two children
setting disjoint keys (as in `TestMerge`). -/
def storeM2 : BagStore :=
  ⟨[⟨[], .emptyRoot, 2, false⟩,
    ⟨[("STRING1", .str "A")], .bag 0, 0, false⟩,
    ⟨[("STRING2", .str "B")], .bag 0, 0, false⟩]⟩

/-- Witness for C6: the conflicting merge fails (and retains the first
child's binding), the disjoint merge succeeds and exposes both keys. -/
theorem C6_merge_semantics_witness :
    (MutableBag.merge storeM 0 [1, 2]).2.isSome = true ∧
    MutableBag.get (MutableBag.merge storeM 0 [1, 2]).1 0 "FOO" =
      .ok (some (.str "X")) ∧
    MutableBag.get (MutableBag.merge storeM2 0 [1, 2]).1 0 "STRING1" =
      .ok (some (.str "A")) ∧
    MutableBag.get (MutableBag.merge storeM2 0 [1, 2]).1 0 "STRING2" =
      .ok (some (.str "B")) := by
  have hri : storeM.node? 0 = some ⟨[], .emptyRoot, 2, false⟩ := rfl
  have h1 : storeM.node? 1 =
      some ⟨[("FOO", AttributeValue.str "X")], .bag 0, 0, false⟩ := rfl
  have h2 : storeM.node? 2 =
      some ⟨[("FOO", AttributeValue.str "Y")], .bag 0, 0, false⟩ := rfl
  have t1 := C6_merge_semantics hri (by decide) h1 h2 (by decide) (by decide)
  have hri2 : storeM2.node? 0 = some ⟨[], .emptyRoot, 2, false⟩ := rfl
  have h21 : storeM2.node? 1 =
      some ⟨[("STRING1", AttributeValue.str "A")], .bag 0, 0, false⟩ := rfl
  have h22 : storeM2.node? 2 =
      some ⟨[("STRING2", AttributeValue.str "B")], .bag 0, 0, false⟩ := rfl
  have t2 := C6_merge_semantics hri2 (by decide) h21 h22 (by decide) (by decide)
  have hnone : (MutableBag.merge storeM2 0 [1, 2]).2 = none := by rfl
  exact ⟨t1.1.mpr ⟨"FOO", .str "X", .str "Y", by decide, by decide, by decide⟩,
    t1.2.2.2 "FOO" (.str "X") (by decide),
    t2.2.2.1 hnone "STRING1" (.str "A") (Or.inl (by decide)),
    t2.2.2.1 hnone "STRING2" (.str "B") (Or.inr (by decide))⟩

/-! ### The stream dispatcher

Translated from the sources: `pkg/api` `grpcServer.dispatcher` and
`handleCheck` (the streaming Check path of `grpcServer.go`). -/

/-- An `rpc.Status`: code and message. -/
structure RpcStatus where
  code : Int
  message : String
deriving DecidableEq, Repr

/-- Modelled from the spec, section 7: `status.InvalidWithDetails` builds
an INVALID_ARGUMENT-class status — gRPC code 3 (the status package is
absent from the sources; only its callers are present). -/
def statusInvalidWithDetails (msg : String) : RpcStatus := ⟨3, msg⟩

/-- A `mixerpb.CheckRequest` as received from the stream: the correlation
index and the attribute delta. -/
structure CheckRequest where
  requestIndex : Int
  attributeUpdate : Attributes
deriving DecidableEq, Repr

/-- A `mixerpb.CheckResponse`. -/
structure CheckResponse where
  requestIndex : Int
  result : RpcStatus
  expirationNanos : Int
deriving DecidableEq, Repr

/-- The fresh response produced by `getState` for each request: every
field carries its Go zero value (in particular `RequestIndex` is 0). -/
def freshCheckResponse : CheckResponse := ⟨0, ⟨0, ""⟩, 0⟩

/-- Translated from the sources (`handleCheck`): echo the request's index
into the response, store the executor's status and a five-second
expiration. The executor's status is a parameter (the aspect dispatcher
is an external collaborator). -/
def handleCheck (req : CheckRequest) (executorStatus : RpcStatus) : CheckResponse :=
  { freshCheckResponse with
    requestIndex := req.requestIndex
    result := executorStatus
    expirationNanos := 5 * 1000000000 }

/-- Modelled from the spec, section 4.4 (`Tracker.ApplyProto`; the
implementation is absent from the sources): decode the delta against the
global dictionary and merge it into the cumulative bag; on decode failure
an error is returned and the cumulative state is unchanged. -/
def ApplyProto (cum : List (String × AttributeValue)) (attrs : Attributes)
    (g : List String) : Except Int (List (String × AttributeValue)) :=
  match GetBagFromProto attrs g with
  | .error e => .error e
  | .ok d => .ok (d.foldl (fun acc p => aset acc p.1 p.2) cum)

/-- One receive outcome on the stream. -/
inductive RecvResult where
  | eof
  | recvErr (e : String)
  | msg (m : CheckRequest)
deriving DecidableEq, Repr

/-- Why the reading loop stopped. -/
inductive StopReason where
  | normalClose
  | streamErr (e : String)
deriving DecidableEq, Repr

/-- One observable action of the dispatcher: a response written
synchronously on the reading goroutine (the decode-failure path), or the
response a scheduled work item will write. -/
inductive DispatchAction where
  | syncResponse (resp : CheckResponse)
  | workResponse (resp : CheckResponse)
deriving DecidableEq, Repr

/-- Translated from the sources (`grpcServer.dispatcher`, reading loop):
`io.EOF` returns nil (normal close) and any other receive error returns
that error; a failed `ApplyProto` writes an INVALID_ARGUMENT response for
just that request synchronously on the reading goroutine — on the fresh
response, whose `RequestIndex` the error path never sets — and continues
reading; a successful decode schedules a work item whose response is
produced by `handleCheck`. -/
def dispatcherLoop (g : List String) (exec : CheckRequest → RpcStatus) :
    List (String × AttributeValue) → List RecvResult →
      List DispatchAction × StopReason
  | _, [] => ([], .normalClose)
  | _, .eof :: _ => ([], .normalClose)
  | _, .recvErr e :: _ => ([], .streamErr e)
  | cum, .msg m :: rest =>
    match ApplyProto cum m.attributeUpdate g with
    | .error _ =>
      let response := { freshCheckResponse with
        result := statusInvalidWithDetails
          "Request could not be processed due to invalid attribute_update." }
      let out := dispatcherLoop g exec cum rest
      (.syncResponse response :: out.1, out.2)
    | .ok cum' =>
      let out := dispatcherLoop g exec cum' rest
      (.workResponse (handleCheck m (exec m)) :: out.1, out.2)

/-- C7: a malformed request never aborts its stream. A request whose
attributes fail to decode produces exactly one synchronous
INVALID_ARGUMENT response and the loop continues with the remaining
messages and unchanged cumulative state; only end-of-input or a transport
receive error stops the loop; every message — good or bad — lets
processing continue. -/
theorem C7_bad_request_continues {g : List String} {exec : CheckRequest → RpcStatus}
    {cum : List (String × AttributeValue)} {m : CheckRequest}
    (hbad : ∃ e, GetBagFromProto m.attributeUpdate g = .error e)
    (rest : List RecvResult) :
    (dispatcherLoop g exec cum (.msg m :: rest) =
      (.syncResponse { freshCheckResponse with
          result := statusInvalidWithDetails
            "Request could not be processed due to invalid attribute_update." }
        :: (dispatcherLoop g exec cum rest).1,
       (dispatcherLoop g exec cum rest).2)) ∧
    (∀ rest', dispatcherLoop g exec cum (.eof :: rest') = ([], .normalClose)) ∧
    (∀ e rest', dispatcherLoop g exec cum (.recvErr e :: rest') =
      ([], .streamErr e)) ∧
    (∀ m' rest', ∃ a cum',
      dispatcherLoop g exec cum (.msg m' :: rest') =
        (a :: (dispatcherLoop g exec cum' rest').1,
         (dispatcherLoop g exec cum' rest').2)) := by
  obtain ⟨e, he⟩ := hbad
  refine ⟨?_, fun rest' => rfl, fun e rest' => rfl, ?_⟩
  · simp only [dispatcherLoop, ApplyProto, he]
  · intro m' rest'
    cases ha : ApplyProto cum m'.attributeUpdate g with
    | error e' =>
      exact ⟨.syncResponse { freshCheckResponse with
          result := statusInvalidWithDetails
            "Request could not be processed due to invalid attribute_update." },
        cum, by simp only [dispatcherLoop, ha]⟩
    | ok cum' =>
      exact ⟨.workResponse (handleCheck m' (exec m')), cum',
        by simp only [dispatcherLoop, ha]⟩

/-- Sample request for the dispatcher witnesses: correlation index 1 and
undecodable attributes. -/
def badRequest : CheckRequest := ⟨1, badAttrs⟩

/-- Witness for C7: the loop at the malformed request with index 1
followed by EOF. -/
theorem C7_bad_request_continues_witness :
    (∃ e, GetBagFromProto badRequest.attributeUpdate sampleGlobalWords = .error e) ∧
    (dispatcherLoop sampleGlobalWords (fun _ => ⟨0, ""⟩) []
        (.msg badRequest :: [.eof]) =
      (.syncResponse { freshCheckResponse with
          result := statusInvalidWithDetails
            "Request could not be processed due to invalid attribute_update." }
        :: (dispatcherLoop sampleGlobalWords (fun _ => ⟨0, ""⟩) [] [.eof]).1,
       (dispatcherLoop sampleGlobalWords (fun _ => ⟨0, ""⟩) [] [.eof]).2)) := by
  have hb : ∃ e, GetBagFromProto badRequest.attributeUpdate sampleGlobalWords =
      .error e := ⟨-24, rfl⟩
  exact ⟨hb, (C7_bad_request_continues hb [.eof]).1⟩

/-- C2 (code bug): the decode-failure path does not echo the request's
correlation index. On a request with `RequestIndex` 1 whose attributes
fail to decode, the synchronously-sent response carries `RequestIndex` 0 —
`handleCheck`, which performs the echo, never runs on that path and the
dispatcher never copies the index — while the claim (and the spec's
"echoed unchanged") require 1. The work path does echo, for every
executor status. -/
theorem C2_requestIndex_dropped_on_decode_failure :
    (∃ resp : CheckResponse,
      (dispatcherLoop sampleGlobalWords (fun _ => ⟨0, ""⟩) []
          [.msg badRequest, .eof]).1 = [.syncResponse resp] ∧
      resp.requestIndex = 0 ∧ badRequest.requestIndex = 1 ∧ (0 : Int) ≠ 1) ∧
    (∀ req st, (handleCheck req st).requestIndex = req.requestIndex) :=
  ⟨⟨{ freshCheckResponse with
      result := statusInvalidWithDetails
        "Request could not be processed due to invalid attribute_update." },
    rfl, rfl, rfl, by decide⟩,
   fun req st => rfl⟩

/-! ### Drain correctness

Translated from the structure of `grpcServer.dispatcher`: `wg.Add(1)`
runs before each `ScheduleWork`, each scheduled work item ends with
`wg.Done()`, the deferred `wg.Wait()` runs when the reading loop returns
and before the deferred `reqTracker.Done()`/`respTracker.Done()`, and the
dispatcher returns (the stream is closed) only after all defers. The
`sync.WaitGroup` contract supplies: `Wait` returns only when the counter
is zero, and every `Done` matches a distinct earlier `Add`. -/

/-- An observable event of one dispatcher execution. -/
inductive DrainEvent where
  | schedule (i : Nat)
  | finish (i : Nat)
  | wgWaitReturn
  | trackerDone
  | closed
deriving DecidableEq, Repr

/-- The ids of the `schedule` events of a trace, in order. -/
def schedIds (t : List DrainEvent) : List Nat :=
  t.filterMap fun e => match e with | .schedule i => some i | _ => none

/-- The ids of the `finish` events of a trace, in order. -/
def finIds (t : List DrainEvent) : List Nat :=
  t.filterMap fun e => match e with | .finish i => some i | _ => none

/-- Recognize a `schedule` event. -/
def isSchedule : DrainEvent → Bool
  | .schedule _ => true
  | _ => false

/-- The event at a position (out-of-range positions read as `closed`;
every use is guarded by a bound). -/
def evAt (t : List DrainEvent) (j : Nat) : DrainEvent :=
  (t[j]?).getD .closed

/-- A trace is an execution of the dispatcher when: every `schedule`
precedes the `wgWaitReturn` (all scheduling happens in the reading loop,
which returns before the deferred `Wait` runs); at every prefix the
`finish` events are completions of distinct earlier `schedule`s (each
`wg.Done` matches one `wg.Add`); at the `wgWaitReturn` the counter is
zero (`Wait`'s contract); `trackerDone` happens after `wgWaitReturn`
(defer order) and `closed` after `trackerDone` (the dispatcher returns
after its defers). -/
@[reducible] def ValidDrainTrace (t : List DrainEvent) : Prop :=
  (∀ j, j < t.length → ∀ k, k < t.length → isSchedule (evAt t j) = true →
    evAt t k = .wgWaitReturn → j < k) ∧
  (∀ k, k ≤ t.length → ∀ x ∈ finIds (t.take k),
    (finIds (t.take k)).count x ≤ (schedIds (t.take k)).count x) ∧
  (∀ k, k < t.length → evAt t k = .wgWaitReturn →
    (schedIds (t.take k)).length = (finIds (t.take k)).length) ∧
  (∀ m, m < t.length → evAt t m = .trackerDone →
    ∃ k, k < m ∧ evAt t k = .wgWaitReturn) ∧
  (∀ c, c < t.length → evAt t c = .closed →
    ∃ m, m < c ∧ evAt t m = .trackerDone)

theorem evAt_of_getElem? {t : List DrainEvent} {j : Nat} {e : DrainEvent}
    (h : t[j]? = some e) : evAt t j = e := by
  simp [evAt, h]

/-- Beyond the `wgWaitReturn` position no further `schedule` occurs, so
the scheduled-id list is frozen. -/
theorem schedIds_frozen {t : List DrainEvent} {k : Nat}
    (hv1 : ∀ j, j < t.length → ∀ k', k' < t.length → isSchedule (evAt t j) = true →
      evAt t k' = .wgWaitReturn → j < k')
    (hk : k < t.length) (hw : evAt t k = .wgWaitReturn) :
    ∀ q, k ≤ q → q ≤ t.length → schedIds (t.take q) = schedIds (t.take k) := by
  intro q hkq hql
  have hsplit : t.take q = t.take k ++ (t.drop k).take (q - k) := by
    rw [← List.take_add]
    congr 1
    omega
  rw [hsplit]
  show List.filterMap _ _ = _
  rw [List.filterMap_append]
  have hseg : ((t.drop k).take (q - k)).filterMap
      (fun e => match e with | DrainEvent.schedule i => some i | _ => none) = [] := by
    rw [List.filterMap_eq_nil_iff]
    intro e he
    have he2 : e ∈ t.drop k := List.mem_of_mem_take he
    obtain ⟨j', hj'⟩ := List.mem_iff_getElem?.mp he2
    rw [List.getElem?_drop] at hj'
    have hlt : k + j' < t.length := (List.getElem?_eq_some_iff.mp hj').1
    cases e with
    | schedule i =>
      have := hv1 (k + j') hlt k hk (by rw [evAt_of_getElem? hj']; rfl) hw
      omega
    | finish i => rfl
    | wgWaitReturn => rfl
    | trackerDone => rfl
    | closed => rfl
  rw [hseg, List.append_nil]
  rfl

/-- From the `wgWaitReturn` position on, the counter stays zero: the
scheduled and finished id lists have equal length at every later prefix. -/
theorem counter_zero_after_wait {t : List DrainEvent} {k : Nat}
    (hv : ValidDrainTrace t) (hk : k < t.length) (hw : evAt t k = .wgWaitReturn) :
    ∀ q, k ≤ q → q ≤ t.length →
      (schedIds (t.take q)).length = (finIds (t.take q)).length := by
  intro q hkq hql
  obtain ⟨hv1, hv2, hv3, _, _⟩ := hv
  have hfrozen := schedIds_frozen hv1 hk hw q hkq hql
  have hzero := hv3 k hk hw
  have hsub : List.Subperm (finIds (t.take q)) (schedIds (t.take q)) :=
    List.subperm_ext_iff.mpr (hv2 q hql)
  have hle : (finIds (t.take q)).length ≤ (schedIds (t.take q)).length :=
    hsub.length_le
  have hsplit : t.take q = t.take k ++ (t.drop k).take (q - k) := by
    rw [← List.take_add]
    congr 1
    omega
  have hge : (finIds (t.take k)).length ≤ (finIds (t.take q)).length := by
    rw [hsplit]
    show _ ≤ (List.filterMap _ _).length
    rw [List.filterMap_append, List.length_append]
    exact Nat.le_add_right _ _
  have hlen2 := congrArg List.length hfrozen
  omega

/-- At the `wgWaitReturn` position every scheduled id has finished. -/
theorem finished_at_wait {t : List DrainEvent} {k : Nat}
    (hv : ValidDrainTrace t) (hk : k < t.length) (hw : evAt t k = .wgWaitReturn) :
    ∀ i, i ∈ schedIds (t.take k) → i ∈ finIds (t.take k) := by
  obtain ⟨_, hv2, hv3, _, _⟩ := hv
  have hsub : List.Subperm (finIds (t.take k)) (schedIds (t.take k)) :=
    List.subperm_ext_iff.mpr (hv2 k (Nat.le_of_lt hk))
  have hperm : List.Perm (finIds (t.take k)) (schedIds (t.take k)) :=
    hsub.perm_of_length_le (Nat.le_of_eq (hv3 k hk hw))
  intro i hi
  exact hperm.mem_iff.mpr hi

/-- C4: drain correctness. In every valid execution of the dispatcher,
the stream reaches `closed` only with a zero outstanding-work counter;
every scheduled work item finishes strictly before the stream closes; and
`Tracker.Done` runs only once the counter has reached zero. -/
theorem C4_drain_correct {t : List DrainEvent} (hv : ValidDrainTrace t) :
    (∀ c, c < t.length → evAt t c = .closed →
      (schedIds (t.take c)).length = (finIds (t.take c)).length ∧
      (∀ (j i : Nat), t[j]? = some (DrainEvent.schedule i) →
        ∃ f, f < c ∧ t[f]? = some (DrainEvent.finish i))) ∧
    (∀ m, m < t.length → evAt t m = .trackerDone →
      (schedIds (t.take m)).length = (finIds (t.take m)).length) := by
  have hvc := hv
  obtain ⟨hv1, hv2, hv3, hv4, hv5⟩ := hvc
  have hwait_of_td : ∀ m, m < t.length → evAt t m = .trackerDone →
      ∃ k, k < m ∧ k < t.length ∧ evAt t k = .wgWaitReturn := by
    intro m hm htd
    obtain ⟨k, hkm, hkw⟩ := hv4 m hm htd
    exact ⟨k, hkm, lt_trans hkm hm, hkw⟩
  constructor
  · intro c hc hcl
    obtain ⟨m, hmc, htd⟩ := hv5 c hc hcl
    obtain ⟨k, hkm, hkl, hkw⟩ := hwait_of_td m (lt_trans hmc hc) htd
    have hkc : k < c := lt_trans hkm hmc
    constructor
    · exact counter_zero_after_wait hv hkl hkw c (Nat.le_of_lt hkc)
        (Nat.le_of_lt hc)
    · intro j i hj
      have hjl : j < t.length := (List.getElem?_eq_some_iff.mp hj).1
      have hjk : j < k := hv1 j hjl k hkl
        (by rw [evAt_of_getElem? hj]; rfl) hkw
      have hmem : i ∈ schedIds (t.take k) := by
        apply List.mem_filterMap.mpr
        refine ⟨.schedule i, ?_, rfl⟩
        apply List.mem_iff_getElem?.mpr
        exact ⟨j, by rw [List.getElem?_take_of_lt hjk]; exact hj⟩
      have hfin := finished_at_wait hv hkl hkw i hmem
      obtain ⟨e, he, hmatch⟩ := List.mem_filterMap.mp hfin
      obtain ⟨f, hf⟩ := List.mem_iff_getElem?.mp he
      have hfk : f < k := by
        have := (List.getElem?_eq_some_iff.mp hf).1
        have h2 : f < k ∧ f < t.length := by simpa [Nat.lt_min] using this
        exact h2.1
      cases e with
      | finish i' =>
        have hii : i' = i := by simpa using hmatch
        subst hii
        refine ⟨f, lt_trans hfk hkc, ?_⟩
        rw [List.getElem?_take_of_lt hfk] at hf
        exact hf
      | schedule i' => simp at hmatch
      | wgWaitReturn => simp at hmatch
      | trackerDone => simp at hmatch
      | closed => simp at hmatch
  · intro m hm htd
    obtain ⟨k, hkm, hkl, hkw⟩ := hwait_of_td m hm htd
    exact counter_zero_after_wait hv hkl hkw m (Nat.le_of_lt hkm)
      (Nat.le_of_lt hm)

/-- The pool-of-size-one scenario of the spec's drain test: two work items
scheduled, the first blocking the only worker, both finishing before the
wait returns, the tracker released, the stream closed. -/
def drainTrace : List DrainEvent :=
  [.schedule 0, .schedule 1, .finish 0, .finish 1,
   .wgWaitReturn, .trackerDone, .closed]

/-- Witness for C4: the drain theorem applied to the two-item trace. -/
theorem C4_drain_correct_witness :
    ValidDrainTrace drainTrace ∧
    ((∀ c, c < drainTrace.length → evAt drainTrace c = .closed →
      (schedIds (drainTrace.take c)).length = (finIds (drainTrace.take c)).length ∧
      (∀ (j i : Nat), drainTrace[j]? = some (DrainEvent.schedule i) →
        ∃ f, f < c ∧ drainTrace[f]? = some (DrainEvent.finish i))) ∧
    (∀ m, m < drainTrace.length → evAt drainTrace m = .trackerDone →
      (schedIds (drainTrace.take m)).length =
        (finIds (drainTrace.take m)).length)) :=
  ⟨by decide, C4_drain_correct (by decide)⟩

/-! ### WorkerPool -/

/-- An opaque work item (a closure has no identity beyond its slot; an id
stands in for it). -/
structure WorkItem where
  id : Nat
deriving DecidableEq, Repr

/-- Modelled from the spec, sections 4.5 and 9 (`pool.GoroutinePool`; the
implementation is absent from the sources — only callers such as the
end-to-end test state are present): an unbounded work queue drained by a
bounded set of workers. -/
structure GoroutinePool where
  queue : List WorkItem
  running : List WorkItem
  workers : Nat
deriving DecidableEq, Repr

/-- Modelled from the spec, section 4.5 (`ScheduleWork`): enqueue the
item. Scheduling is a total function of the pool state: it never blocks
on worker availability and never refuses a submission. -/
def ScheduleWork (gp : GoroutinePool) (w : WorkItem) : GoroutinePool :=
  { gp with queue := gp.queue ++ [w] }

/-- The pool's transitions: scheduling (enabled in every state), a worker
picking up the queue head (enabled only while fewer than `workers` items
run), and a running item completing. -/
inductive PoolStep : GoroutinePool → GoroutinePool → Prop where
  | sched (gp : GoroutinePool) (w : WorkItem) : PoolStep gp (ScheduleWork gp w)
  | start (gp : GoroutinePool) (w : WorkItem) (rest : List WorkItem) :
      gp.queue = w :: rest → gp.running.length < gp.workers →
      PoolStep gp { gp with queue := rest, running := w :: gp.running }
  | complete (gp : GoroutinePool) (w : WorkItem) (l1 l2 : List WorkItem) :
      gp.running = l1 ++ w :: l2 →
      PoolStep gp { gp with running := l1 ++ l2 }

/-- C9: submission never blocks and is never refused. `ScheduleWork` is a
transition enabled in every pool state and merely appends to the queue;
any number of consecutive submissions is accepted without a worker
becoming available; only the set of concurrently running items is
bounded, by the worker count, and every transition preserves that
bound. -/
theorem C9_schedule_never_blocks :
    (∀ (gp : GoroutinePool) (w : WorkItem),
      PoolStep gp (ScheduleWork gp w) ∧
      (ScheduleWork gp w).queue = gp.queue ++ [w] ∧
      (ScheduleWork gp w).running = gp.running) ∧
    (∀ (gp : GoroutinePool) (ws : List WorkItem),
      (ws.foldl ScheduleWork gp).queue = gp.queue ++ ws ∧
      (ws.foldl ScheduleWork gp).running = gp.running) ∧
    (∀ gp gp', PoolStep gp gp' → gp.running.length ≤ gp.workers →
      gp'.running.length ≤ gp.workers) := by
  refine ⟨fun gp w => ⟨PoolStep.sched gp w, rfl, rfl⟩, fun gp ws => ?_, ?_⟩
  · induction ws generalizing gp with
    | nil => exact ⟨(List.append_nil _).symm, rfl⟩
    | cons w rest ih =>
      obtain ⟨hq, hr⟩ := ih (ScheduleWork gp w)
      constructor
      · rw [List.foldl_cons, hq]
        show (gp.queue ++ [w]) ++ rest = _
        rw [List.append_assoc]
        rfl
      · rw [List.foldl_cons, hr]
        rfl
  · intro gp gp' hstep hbound
    cases hstep with
    | sched w => exact hbound
    | start w rest hq hlt => simpa using hlt
    | complete w l1 l2 hr =>
      have := congrArg List.length hr
      simp only [List.length_append, List.length_cons] at this
      simp only [List.length_append]
      omega

/-- Pool state for the C9 witness: one queued item, an idle single
worker. -/
def poolA : GoroutinePool := ⟨[⟨0⟩], [], 1⟩

/-- `poolA` after its worker picks up the queued item. -/
def poolB : GoroutinePool := ⟨[], [⟨0⟩], 1⟩

/-- Witness for C9: scheduling onto the concrete pool appends to the
queue, and the worker-pickup transition keeps the running set within the
worker bound. -/
theorem C9_schedule_never_blocks_witness :
    (PoolStep poolA poolB ∧ poolA.running.length ≤ poolA.workers) ∧
    (ScheduleWork poolA ⟨1⟩).queue = poolA.queue ++ [⟨1⟩] ∧
    poolB.running.length ≤ poolA.workers := by
  have hstep : PoolStep poolA poolB := PoolStep.start poolA ⟨0⟩ [] rfl (by decide)
  exact ⟨⟨hstep, by decide⟩,
    (C9_schedule_never_blocks.1 poolA ⟨1⟩).2.1,
    C9_schedule_never_blocks.2.2 poolA poolB hstep (by decide)⟩

end Mixer
